import Mathlib

/-!
Verification development for the mercury network-traffic analyzer.

This file gives a shallow embedding, in Lean 4, of the parts of the
mercury source that its specification speaks about, and settles the
specification's claims against that embedding:

* the writer thread's tournament comparison `queue_less` and the k-way
  merge loop of `src/output.c`;
* the fingerprint-prevalence adaptive LRU, the classifier resource-archive
  scan, the naive-Bayes probability tables and the analysis pipeline of
  `src/libmerc/analysis.h`;
* the QUIC initial-packet key schedule, frame parser and crypto-fragment
  reassembly buffer of `src/libmerc/quic.h`;
* the HTTP header table of `src/libmerc/http.h`.

Machine integers are embedded as `Nat`/`Int` (with explicit `% 2 ^ w`
where C truncation matters), C floating point as `ℝ`, byte buffers as
`List Nat`, and the null-able byte cursor `datum` as `Option (List Nat)`.
Definitions are translated from the source; the few primitives whose
implementation lives outside the covered files (the `datum` cursor
operations, the SHA-256/HKDF routines of `crypto_engine.h`, the
`analysis_result` container of `result.h`) are modelled from the
specification and marked as such in their doc comments.
-/

/-! ## Part 1: the writer thread's tournament comparison (src/output.c)

`struct llq_msg`, `struct ll_queue` and `struct tourn_tree` are declared
in the (uncovered) header `llq.h`; their fields are reconstructed here
from their uses in `output.c` and from spec section 4.1: a message slot
holds a `used` flag and a `struct timespec` timestamp, a queue holds a
read index and an array of slots, and the tournament tree holds a
`stalled` flag.  Only the fields `output.c` reads are modelled. -/

/-- One slot of a lockless queue: the `used` flag and the
`struct timespec` timestamp (seconds, nanoseconds) that
`queue_less` reads.  The payload bytes are irrelevant to the
comparison and are omitted. -/
structure llq_msg where
  used : Bool
  ts_sec : Int
  ts_nsec : Int
deriving DecidableEq, Repr

/-- One lockless queue as `queue_less` sees it: the read index `ridx`
and the slot array `msgs`. -/
structure ll_queue where
  ridx : Nat
  msgs : List llq_msg
deriving DecidableEq, Repr

/-- The global `t_queues` object: `qnum` queues. -/
structure thread_queues where
  qnum : Nat
  queue : List ll_queue
deriving DecidableEq, Repr

/-- Out-of-range reads return this inert slot (never reached on the
in-range paths that `queue_less` guards with `0 <= q && q < qnum`). -/
def default_msg : llq_msg := ⟨false, 0, 0⟩

/-- The head slot of queue `q`: `t_queues.queue[q].msgs[t_queues.queue[q].ridx]`. -/
def head_msg (tq : thread_queues) (q : Nat) : llq_msg :=
  let qq := tq.queue.getD q ⟨0, []⟩
  qq.msgs.getD qq.ridx default_msg

/-- `time_less` from output.c: lexicographic strict comparison of
`(tv_sec, tv_nsec)`. -/
def time_less (tsl tsr : Int × Int) : Bool :=
  (tsl.1 < tsr.1) || ((tsl.1 = tsr.1) && (tsl.2 < tsr.2))

/-- `queue_less(ql, qr, t_tree)` from output.c.  Returns the pair
(comparison result, stall observed): the C function returns 1 when the
left queue wins and also sets `t_tree->stalled = 1` whenever an
in-range queue's head slot has `used == 0`.  Queue numbers are `Int`
because `-1` is a sentinel. -/
def queue_less (tq : thread_queues) (ql qr : Int) : Bool × Bool :=
  let ql_in : Bool := decide (0 ≤ ql ∧ ql < (tq.qnum : Int))
  let qr_in : Bool := decide (0 ≤ qr ∧ qr < (tq.qnum : Int))
  let ql_used : Bool := ql_in && (head_msg tq ql.toNat).used
  let qr_used : Bool := qr_in && (head_msg tq qr.toNat).used
  let stalled : Bool := (ql_in && !(head_msg tq ql.toNat).used)
                     || (qr_in && !(head_msg tq qr.toNat).used)
  let res : Bool :=
    if ql = -1 then false
    else if qr = -1 then true
    else if (tq.qnum : Int) ≤ ql then false
    else if (tq.qnum : Int) ≤ qr then true
    else if ql_used = false then false
    else if qr_used = false then true
    else time_less ((head_msg tq ql.toNat).ts_sec, (head_msg tq ql.toNat).ts_nsec)
                   ((head_msg tq qr.toNat).ts_sec, (head_msg tq qr.toNat).ts_nsec)
  (res, stalled)

/-- `lesser_queue(ql, qr, t_tree)` from output.c: the queue that wins the
comparison (advances in the tournament). -/
def lesser_queue (tq : thread_queues) (ql qr : Int) : Int :=
  if (queue_less tq ql qr).1 = true then ql else qr

/-- A two-queue state in which both head slots are unused. -/
def tqC1 : thread_queues :=
  { qnum := 2
  , queue := [ { ridx := 0, msgs := [⟨false, 3, 0⟩] }
             , { ridx := 0, msgs := [⟨false, 7, 0⟩] } ] }

/-! ## Part 2: the fingerprint-prevalence adaptive LRU
(`class fingerprint_prevalence`, src/libmerc/analysis.h)

The C++ object keeps a doubly linked list `list_` (front = most
recently used), a map `set_` from fingerprint to its list node, and an
immutable `known_set_`.  Since `set_` always holds exactly the keys of
`list_` (each mapped to its unique node), the pair is embedded as the
single list `list_`; `known_set_` is a list used only through
membership.  Locks always succeed in the sequential embedding; a
contended `update` (which the C++ code silently skips) is a separate
no-op operation. -/

structure fingerprint_prevalence where
  list_ : List String
  known_set_ : List String
  max_cache_size_ : Nat
deriving DecidableEq, Repr

/-- The `fingerprint_prevalence(uint32_t max_cache_size)` constructor:
empty adaptive set, empty known set. -/
def fp_prevalence_init (cap : Nat) : fingerprint_prevalence := ⟨[], [], cap⟩

/-- The classifier's member `fingerprint_prevalence fp_prevalence{100000}`. -/
def classifier_fp_prevalence : fingerprint_prevalence := fp_prevalence_init 100000

/-- `fingerprint_prevalence::contains`: known set first, then adaptive set. -/
def fp_contains (st : fingerprint_prevalence) (fp : String) : Bool :=
  fp ∈ st.known_set_ || fp ∈ st.list_

/-- `fingerprint_prevalence::initial_add`: seed the known set. -/
def fp_initial_add (st : fingerprint_prevalence) (fp : String) :
    fingerprint_prevalence :=
  { st with known_set_ := fp :: st.known_set_ }

/-- `fingerprint_prevalence::update` with the exclusive try-lock
acquired: known fingerprints are ignored; a fingerprint absent from the
adaptive set evicts the list tail when the cache is full; a present one
is unlinked from its position; either way the fingerprint is pushed to
the front. -/
def fp_update (st : fingerprint_prevalence) (fp : String) :
    fingerprint_prevalence :=
  if fp ∈ st.known_set_ then st
  else
    let l1 :=
      if fp ∈ st.list_ then st.list_.erase fp
      else if st.list_.length = st.max_cache_size_ then st.list_.dropLast
      else st.list_
    { st with list_ := fp :: l1 }

/-- One externally visible operation on the prevalence object.  `upd`
is an `update` whose try-lock succeeds, `upd_contended` one whose
try-lock fails (the C++ code bails out), `query` is `contains` (const). -/
inductive prevalence_op where
  | add (fp : String)
  | upd (fp : String)
  | upd_contended (fp : String)
  | query (fp : String)
deriving DecidableEq, Repr

/-- Apply one operation to the prevalence state. -/
def prevalence_apply (st : fingerprint_prevalence) : prevalence_op → fingerprint_prevalence
  | .add fp => fp_initial_add st fp
  | .upd fp => fp_update st fp
  | .upd_contended _ => st
  | .query _ => st

/-- Run a sequence of operations. -/
def prevalence_run (st : fingerprint_prevalence) (ops : List prevalence_op) :
    fingerprint_prevalence :=
  ops.foldl prevalence_apply st

/-- Feed a list of fingerprints through `update` (each lock succeeding). -/
def prevalence_feed (st : fingerprint_prevalence) (fps : List String) :
    fingerprint_prevalence :=
  fps.foldl fp_update st

/-! ## Part 3: the classifier's resource-archive scan
(`classifier::classifier`, src/libmerc/analysis.h lines 1210-1326)

The constructor walks the archive entries once, setting four flags, and
throws (`"resource archive is missing one or more files"`) when at
least one of them is still false afterwards.  Only the flag updates are
modelled; the per-line processing does not affect the flags. -/

/-- One entry of the resource archive: its name and whether it is a
regular file. -/
structure archive_entry where
  name : String
  is_regular : Bool
deriving DecidableEq, Repr

/-- The four got-flags of `classifier::classifier`. -/
structure classifier_flags where
  got_fp_db : Bool
  got_fp_prevalence : Bool
  got_version : Bool
  got_doh_watchlist : Bool
deriving DecidableEq, Repr

/-- Flag state before the scan loop. -/
def classifier_flags_init : classifier_flags := ⟨false, false, false, false⟩

/-- How one archive entry updates the got-flags, translated branch by
branch from the constructor: note that the `pyasn.db` branch sets
`got_version = true` (analysis.h line 1290), and that
`fingerprint_db_lite.json` sets `got_fp_db` only when a threshold is
set. -/
def classifier_scan_step (threshold_set : Bool) (f : classifier_flags)
    (e : archive_entry) : classifier_flags :=
  if e.is_regular then
    if e.name = "fp_prevalence_tls.txt" then { f with got_fp_prevalence := true }
    else if e.name = "fingerprint_db_lite.json" then
      (if threshold_set then { f with got_fp_db := true } else f)
    else if e.name = "fingerprint_db.json" then { f with got_fp_db := true }
    else if e.name = "VERSION" then { f with got_version := true }
    else if e.name = "pyasn.db" then { f with got_version := true }
    else if e.name = "doh-watchlist.txt" then { f with got_doh_watchlist := true }
    else f
  else f

/-- All four flags set: the loop's early-exit condition and, negated,
the constructor's throw condition. -/
def classifier_all_got (f : classifier_flags) : Bool :=
  f.got_fp_db && f.got_fp_prevalence && f.got_version && f.got_doh_watchlist

/-- The scan loop over the archive entries, with the early break once
all four flags are set. -/
def classifier_scan (threshold_set : Bool) :
    classifier_flags → List archive_entry → classifier_flags
  | f, [] => f
  | f, e :: rest =>
      let f1 := classifier_scan_step threshold_set f e
      if classifier_all_got f1 then f1 else classifier_scan threshold_set f1 rest

/-- Whether `classifier::classifier` throws: it throws when the archive
yields no entry at all, or when after the scan at least one of the four
required-file flags is still false
(`if (!got_fp_db | !got_fp_prevalence | !got_version | !got_doh_watchlist) throw ...`). -/
def classifier_init_throws (threshold_set : Bool)
    (entries : List archive_entry) : Bool :=
  entries.isEmpty ||
    !(classifier_all_got
        (classifier_scan threshold_set classifier_flags_init entries))

/-- An archive holding the two text lists, a fingerprint database and the
optional `pyasn.db` — but no `VERSION` entry. -/
def archive_missing_version : List archive_entry :=
  [ ⟨"fingerprint_db.json", true⟩
  , ⟨"fp_prevalence_tls.txt", true⟩
  , ⟨"doh-watchlist.txt", true⟩
  , ⟨"pyasn.db", true⟩ ]

/-! ## Part 4: the QUIC initial-packet payload (src/libmerc/quic.h)

The byte cursor `struct datum` lives in the uncovered header `datum.h`;
it is a `{data, data_end}` view that enters a permanent null state on
any short read. -/

/-- Modelled from the spec: the `datum` byte cursor of `datum.h`.
`some bs` is a live view over the remaining bytes `bs`; `none` is the
null state that every failed (too-short) read puts the cursor into.
Every dissector "takes an input byte cursor", and "on short input,
`is_valid = false` — never abort". -/
abbrev Datum : Type := Option (List Nat)

/-- The bytes remaining under the cursor (none for the null state). -/
def datum_bytes : Datum → List Nat
  | some bs => bs
  | none => []

/-- The remaining length, `datum::length()` (0 in the null state). -/
def datum_len (d : Datum) : Nat := (datum_bytes d).length

/-- `datum::is_not_empty()`: non-null and at least one byte left. -/
def datum_is_not_empty : Datum → Bool
  | some (_ :: _) => true
  | _ => false

/-- Modelled from the spec: `datum::read_uint8` — consume one byte; a
read past the end nulls the cursor (the returned byte is then the
C-side uninitialized value, fixed here to 0; no modelled code path
consumes it). -/
def read_uint8 : Datum → Nat × Datum
  | some (b :: rest) => (b, some rest)
  | _ => (0, none)

/-- Modelled from the spec: `datum::parse(d, len)` — split off a child
view of exactly `len` bytes; if fewer remain, both views become null. -/
def datum_parse : Datum → Nat → Datum × Datum
  | some bs, len =>
      if len ≤ bs.length then (some (bs.take len), some (bs.drop len))
      else (none, none)
  | none, _ => (none, none)

/-- The tail loop of `variable_length_integer`: accumulate `n` further
bytes into the value. -/
def varint_loop : Nat → Nat → Datum → Nat × Datum
  | 0, v, d => (v, d)
  | n + 1, v, d =>
      let (b, d1) := read_uint8 d
      varint_loop n (v * 256 + b) d1

/-- `class variable_length_integer` (RFC 9000 section 16): the two most
significant bits of the first byte select a 1/2/4/8-byte encoding. -/
def variable_length_integer (d : Datum) : Nat × Datum :=
  let (b, d1) := read_uint8 d
  let len : Nat :=
    if b &&& 0xc0 = 0xc0 then 8
    else if b &&& 0xc0 = 0x80 then 4
    else if b &&& 0xc0 = 0x40 then 2
    else 1
  varint_loop (len - 1) (b &&& 0x3f) d1

/-- `class crypto` (CRYPTO frame body): offset, length, data. -/
structure crypto where
  off : Nat
  len : Nat
  data : Datum
deriving DecidableEq, Repr

/-- The `crypto::crypto(datum &p)` constructor. -/
def crypto_parse (p : Datum) : crypto × Datum :=
  let (o, p1) := variable_length_integer p
  let (l, p2) := variable_length_integer p1
  let (dd, p3) := datum_parse p2 l
  (⟨o, l, dd⟩, p3)

/-- `crypto::is_valid()`: the data view is non-null and non-empty. -/
def crypto_is_valid (c : crypto) : Bool := datum_is_not_empty c.data

/-- `class ack` (ACK frame body): four variable-length integers followed
by `ack_range_count` ACK ranges of two variable-length integers each. -/
structure ack_frame where
  largest_acked : Nat
  ack_delay : Nat
  ack_range_count : Nat
  first_ack_range : Nat
  valid : Bool
deriving DecidableEq, Repr

/-- The ACK-range loop of the `ack` constructor. -/
def ack_ranges_loop : Nat → Datum → Datum
  | 0, d => d
  | n + 1, d =>
      let (_, d1) := variable_length_integer d
      let (_, d2) := variable_length_integer d1
      ack_ranges_loop n d2

/-- The `ack::ack(datum &d)` constructor. -/
def ack_parse (d : Datum) : ack_frame × Datum :=
  let (la, d1) := variable_length_integer d
  let (ad, d2) := variable_length_integer d1
  let (rc, d3) := variable_length_integer d2
  let (fr, d4) := variable_length_integer d3
  let d5 := ack_ranges_loop rc d4
  (⟨la, ad, rc, fr, d5 ≠ none⟩, d5)

/-- `class connection_close` (CONNECTION_CLOSE frame body). -/
structure connection_close where
  error_code : Nat
  frame_type : Nat
  reason_phrase_length : Nat
  reason_phrase : Datum
deriving DecidableEq, Repr

/-- The `connection_close::connection_close(datum &p)` constructor. -/
def connection_close_parse (p : Datum) : connection_close × Datum :=
  let (ec, p1) := variable_length_integer p
  let (ft, p2) := variable_length_integer p1
  let (rl, p3) := variable_length_integer p2
  let (rp, p4) := datum_parse p3 rl
  (⟨ec, ft, rl, rp⟩, p4)

/-- The `std::variant` held by `class quic_frame`. -/
inductive quic_frame_v where
  | monostate
  | padding
  | ping
  | ack (a : ack_frame)
  | crypto (c : crypto)
  | connection_close (cc : connection_close)
deriving DecidableEq, Repr

/-- The `quic_frame::quic_frame(datum &d)` constructor: read the type
byte (a failed read yields `monostate`), dispatch on it, and place
`monostate` for every unrecognized type value. -/
def quic_frame_parse (d : Datum) : quic_frame_v × Datum :=
  match d with
  | some (t :: rest) =>
      if t = 0x06 then
        let (c, d2) := crypto_parse (some rest)
        (.crypto c, d2)
      else if t = 0x1c then
        let (cc, d2) := connection_close_parse (some rest)
        (.connection_close cc, d2)
      else if t = 0x00 then (.padding, some rest)
      else if t = 0x01 then (.ping, some rest)
      else if t = 0x02 then
        let (a, d2) := ack_parse (some rest)
        (.ack a, d2)
      else (.monostate, some rest)
  | _ => (.monostate, none)

/-- `quic_frame::is_valid()`: any alternative but `monostate`. -/
def quic_frame_is_valid (f : quic_frame_v) : Bool := f ≠ quic_frame_v.monostate

/-- Modelled from the spec: `pt_buf_len`, the size of the decryption and
reassembly buffers, lives in the uncovered header `crypto_engine.h`; the
spec bounds the CRYPTO reassembly buffer by 4 KiB. -/
def pt_buf_len : Nat := 4096

/-- `struct cryptographic_buffer`: a fixed `pt_buf_len`-byte buffer plus
the high-water mark `buf_len`. -/
structure cryptographic_buffer where
  buf_len : Nat
  buffer : List Nat
deriving DecidableEq, Repr

/-- The zero-initialized `cryptographic_buffer`. -/
def crypto_buffer_init : cryptographic_buffer := ⟨0, List.replicate pt_buf_len 0⟩

/-- Overwrite `buf` from position `off` with `data` (the effect of
`memcpy(buffer + off, data, len)` inside a buffer of fixed length). -/
def write_bytes (buf : List Nat) (off : Nat) (data : List Nat) : List Nat :=
  buf.take off ++ data ++ buf.drop (off + data.length)

/-- `cryptographic_buffer::extend`: copy the fragment in at its offset
and raise the high-water mark, but only when `offset + length` fits the
buffer; otherwise do nothing. -/
def cbuf_extend (b : cryptographic_buffer) (c : crypto) : cryptographic_buffer :=
  if c.off + c.len ≤ pt_buf_len then
    { buf_len := if c.off + c.len > b.buf_len then c.off + c.len else b.buf_len
    , buffer := write_bytes b.buffer c.off (datum_bytes c.data) }
  else b

/-- The state accumulated by the frame loop in `quic_init::quic_init`:
the valid frames seen so far, the crypto fragment reassembly buffer,
and the saved CONNECTION_CLOSE/ACK frame `cc`. -/
structure quic_init_state where
  frames : List quic_frame_v
  crypto_buffer : cryptographic_buffer
  cc : quic_frame_v
deriving DecidableEq, Repr

/-- The loop state before any frame is parsed. -/
def quic_init_state_init : quic_init_state :=
  ⟨[], crypto_buffer_init, .monostate⟩

/-- The body of the frame loop in `quic_init::quic_init` for one valid
frame: extend the crypto buffer on a valid CRYPTO frame, remember a
CONNECTION_CLOSE or ACK frame, record the frame. -/
def quic_init_step (st : quic_init_state) (fr : quic_frame_v) : quic_init_state :=
  { frames := st.frames ++ [fr]
  , crypto_buffer :=
      match fr with
      | .crypto c => if crypto_is_valid c then cbuf_extend st.crypto_buffer c
                     else st.crypto_buffer
      | _ => st.crypto_buffer
  , cc :=
      match fr with
      | .connection_close _ => fr
      | .ack _ => fr
      | _ => st.cc }

/-- The frame loop of `quic_init::quic_init`, fuelled by the number of
plaintext bytes (each iteration consumes at least the type byte, so the
fuel never runs out before the loop's own exit conditions fire;
see `quic_frames_loop_fuel_sufficient`). -/
def quic_frames_loop : Nat → Datum → quic_init_state → quic_init_state
  | 0, _, st => st
  | fuel + 1, d, st =>
      if datum_is_not_empty d then
        let (fr, d2) := quic_frame_parse d
        if fr = quic_frame_v.monostate then st
        else quic_frames_loop fuel d2 (quic_init_step st fr)
      else st

/-- Parsing the decrypted payload of a QUIC initial as a frame sequence. -/
def quic_init_frames (plaintext : List Nat) : quic_init_state :=
  quic_frames_loop (plaintext.length + 1) (some plaintext) quic_init_state_init

/-! ## Part 5: the QUIC initial-packet key schedule
(`quic_parameters`, `quic_crypto_engine::process_initial_packet`,
src/libmerc/quic.h)

`process_initial_packet` computes
`initial_secret = HMAC-SHA256(initial_salt, dcid)` and then derives the
client initial secret, key, iv and header-protection key through
`crypto_engine::kdf_tls13` with the labels and output lengths written in
quic.h.  `kdf_tls13`, `HMAC` and SHA-256 live outside the covered files
and are modelled from the spec (RFC 9001 / RFC 8446 HKDF-Expand-Label
over HMAC-SHA256); SHA-256 itself is implemented here from FIPS 180-4 so
that the derivation is executable. -/

/-- Truncation to a 32-bit word. -/
def w32 (x : Nat) : Nat := x % 4294967296

/-- 32-bit right rotation. -/
def rotr32 (n x : Nat) : Nat := w32 ((x >>> n) ||| (x <<< (32 - n)))

/-- Modelled from the spec: SHA-256 Σ0. -/
def bsig0 (x : Nat) : Nat := rotr32 2 x ^^^ rotr32 13 x ^^^ rotr32 22 x

/-- Modelled from the spec: SHA-256 Σ1. -/
def bsig1 (x : Nat) : Nat := rotr32 6 x ^^^ rotr32 11 x ^^^ rotr32 25 x

/-- Modelled from the spec: SHA-256 σ0. -/
def ssig0 (x : Nat) : Nat := rotr32 7 x ^^^ rotr32 18 x ^^^ (x >>> 3)

/-- Modelled from the spec: SHA-256 σ1. -/
def ssig1 (x : Nat) : Nat := rotr32 17 x ^^^ rotr32 19 x ^^^ (x >>> 10)

/-- Modelled from the spec: SHA-256 Ch (complement within 32 bits). -/
def ch32 (x y z : Nat) : Nat := (x &&& y) ^^^ ((x ^^^ 0xffffffff) &&& z)

/-- Modelled from the spec: SHA-256 Maj. -/
def maj32 (x y z : Nat) : Nat := (x &&& y) ^^^ (x &&& z) ^^^ (y &&& z)

/-- The SHA-256 round constants (FIPS 180-4). -/
def sha256_k : List Nat :=
  [0x428a2f98, 0x71374491, 0xb5c0fbcf, 0xe9b5dba5, 0x3956c25b, 0x59f111f1, 0x923f82a4, 0xab1c5ed5] ++
  [0xd807aa98, 0x12835b01, 0x243185be, 0x550c7dc3, 0x72be5d74, 0x80deb1fe, 0x9bdc06a7, 0xc19bf174] ++
  [0xe49b69c1, 0xefbe4786, 0x0fc19dc6, 0x240ca1cc, 0x2de92c6f, 0x4a7484aa, 0x5cb0a9dc, 0x76f988da] ++
  [0x983e5152, 0xa831c66d, 0xb00327c8, 0xbf597fc7, 0xc6e00bf3, 0xd5a79147, 0x06ca6351, 0x14292967] ++
  [0x27b70a85, 0x2e1b2138, 0x4d2c6dfc, 0x53380d13, 0x650a7354, 0x766a0abb, 0x81c2c92e, 0x92722c85] ++
  [0xa2bfe8a1, 0xa81a664b, 0xc24b8b70, 0xc76c51a3, 0xd192e819, 0xd6990624, 0xf40e3585, 0x106aa070] ++
  [0x19a4c116, 0x1e376c08, 0x2748774c, 0x34b0bcb5, 0x391c0cb3, 0x4ed8aa4a, 0x5b9cca4f, 0x682e6ff3] ++
  [0x748f82ee, 0x78a5636f, 0x84c87814, 0x8cc70208, 0x90befffa, 0xa4506ceb, 0xbef9a3f7, 0xc67178f2]

/-- The eight SHA-256 working variables. -/
structure sha_state where
  a : Nat
  b : Nat
  c : Nat
  d : Nat
  e : Nat
  f : Nat
  g : Nat
  h : Nat
deriving DecidableEq, Repr

/-- The SHA-256 initial hash value. -/
def sha256_h0 : sha_state :=
  ⟨0x6a09e667, 0xbb67ae85, 0x3c6ef372, 0xa54ff53a, 0x510e527f, 0x9b05688c, 0x1f83d9ab, 0x5be0cd19⟩

/-- Big-endian bytes to 32-bit words. -/
def bytes_to_words : List Nat → List Nat
  | b0 :: b1 :: b2 :: b3 :: rest => (((b0 * 256 + b1) * 256 + b2) * 256 + b3) :: bytes_to_words rest
  | _ => []

/-- One 32-bit word to big-endian bytes. -/
def word_to_bytes (x : Nat) : List Nat :=
  [x / 16777216 % 256, x / 65536 % 256, x / 256 % 256, x % 256]

/-- The SHA-256 message schedule: extend the 16 block words by `n` more. -/
def sha256_schedule : Nat → List Nat → List Nat
  | 0, acc => acc
  | n + 1, acc =>
      let t := w32 (ssig1 (acc.getD (acc.length - 2) 0) + acc.getD (acc.length - 7) 0 +
                    ssig0 (acc.getD (acc.length - 15) 0) + acc.getD (acc.length - 16) 0)
      sha256_schedule n (acc ++ [t])

/-- One SHA-256 round on the working variables. -/
def sha256_round (s : sha_state) (kw : Nat × Nat) : sha_state :=
  let t1 := w32 (s.h + bsig1 s.e + ch32 s.e s.f s.g + kw.1 + kw.2)
  let t2 := w32 (bsig0 s.a + maj32 s.a s.b s.c)
  ⟨w32 (t1 + t2), s.a, s.b, s.c, w32 (s.d + t1), s.e, s.f, s.g⟩

/-- Compress one 64-byte block into the hash state. -/
def sha256_compress (s : sha_state) (block : List Nat) : sha_state :=
  let w := sha256_schedule 48 (bytes_to_words block)
  let t := (sha256_k.zip w).foldl sha256_round s
  ⟨w32 (s.a + t.a), w32 (s.b + t.b), w32 (s.c + t.c), w32 (s.d + t.d),
   w32 (s.e + t.e), w32 (s.f + t.f), w32 (s.g + t.g), w32 (s.h + t.h)⟩

/-- Merkle-Damgard padding: 0x80, zeros, 64-bit big-endian bit length. -/
def sha256_pad (msg : List Nat) : List Nat :=
  let len := msg.length
  let zeros := (64 - ((len + 9) % 64)) % 64
  msg ++ [0x80] ++ List.replicate zeros 0 ++
    [len * 8 / 72057594037927936 % 256, len * 8 / 281474976710656 % 256,
     len * 8 / 1099511627776 % 256, len * 8 / 4294967296 % 256,
     len * 8 / 16777216 % 256, len * 8 / 65536 % 256, len * 8 / 256 % 256, len * 8 % 256]

/-- Modelled from the spec: SHA-256 of a byte string (FIPS 180-4),
the hash beneath the HMAC/HKDF calls of `process_initial_packet`. -/
def sha256 (msg : List Nat) : List Nat :=
  let padded := sha256_pad msg
  let final := (List.range (padded.length / 64)).foldl
    (fun s i => sha256_compress s ((padded.drop (64 * i)).take 64)) sha256_h0
  word_to_bytes final.a ++ word_to_bytes final.b ++ word_to_bytes final.c ++
  word_to_bytes final.d ++ word_to_bytes final.e ++ word_to_bytes final.f ++
  word_to_bytes final.g ++ word_to_bytes final.h

/-- Modelled from the spec: HMAC-SHA256 (RFC 2104), the `HMAC(EVP_sha256(), ...)`
call computing `initial_secret` in `process_initial_packet`. -/
def hmac_sha256 (key msg : List Nat) : List Nat :=
  let k0 := if 64 < key.length then sha256 key else key
  let k0p := k0 ++ List.replicate (64 - k0.length) 0
  let ipad := k0p.map (fun b => b ^^^ 0x36)
  let opad := k0p.map (fun b => b ^^^ 0x5c)
  sha256 (opad ++ sha256 (ipad ++ msg))

/-- Modelled from the spec: `crypto_engine::kdf_tls13` (crypto_engine.h is
not under src/) — HKDF-Expand-Label (RFC 8446 section 7.1) with an empty
context, for output lengths of at most one hash block: the info string is
the two-byte output length, the length-prefixed label and a zero-length
context, and the output is the leading `out_len` bytes of
`HMAC(secret, info || 0x01)`. -/
def kdf_tls13 (secret label : List Nat) (out_len : Nat) : List Nat :=
  let info := [out_len / 256, out_len % 256, label.length] ++ label ++ [0]
  (hmac_sha256 secret (info ++ [1])).take out_len

/-- ASCII bytes of a label string. -/
def str_bytes (s : String) : List Nat := s.data.map Char.toNat

/-- `salt_d22` from `quic_parameters` (quic.h). -/
def salt_d22 : List Nat :=
  [0x7f, 0xbc, 0xdb, 0x0e, 0x7c, 0x66, 0xbb, 0xe9, 0x19, 0x3a,
   0x96, 0xcd, 0x21, 0x51, 0x9e, 0xbd, 0x7a, 0x02, 0x64, 0x4a]

/-- `salt_d23_d28` from `quic_parameters` (quic.h). -/
def salt_d23_d28 : List Nat :=
  [0xc3, 0xee, 0xf7, 0x12, 0xc7, 0x2e, 0xbb, 0x5a, 0x11, 0xa7,
   0xd2, 0x43, 0x2b, 0xb4, 0x63, 0x65, 0xbe, 0xf9, 0xf5, 0x02]

/-- `salt_d29_d32` from `quic_parameters` (quic.h). -/
def salt_d29_d32 : List Nat :=
  [0xaf, 0xbf, 0xec, 0x28, 0x99, 0x93, 0xd2, 0x4c, 0x9e, 0x97,
   0x86, 0xf1, 0x9c, 0x61, 0x11, 0xe0, 0x43, 0x90, 0xa8, 0x99]

/-- `salt_d33_v1` from `quic_parameters` (quic.h). -/
def salt_d33_v1 : List Nat :=
  [0x38, 0x76, 0x2c, 0xf7, 0xf5, 0x59, 0x34, 0xb3, 0x4d, 0x17,
   0x9a, 0xe6, 0xa4, 0xc8, 0x0c, 0xad, 0xcc, 0xbb, 0x7f, 0x0a]

/-- `quic_parameters::get_initial_salt`: the version-to-salt table of
quic.h (nullptr for unknown versions). -/
def get_initial_salt (version : Nat) : Option (List Nat) :=
  if version = 4278190102 then some salt_d22
  else if version = 4278190103 then some salt_d23_d28
  else if version = 4278190104 then some salt_d23_d28
  else if version = 4278190105 then some salt_d23_d28
  else if version = 4278190106 then some salt_d23_d28
  else if version = 4278190107 then some salt_d23_d28
  else if version = 4278190108 then some salt_d23_d28
  else if version = 4278190109 then some salt_d29_d32
  else if version = 4278190110 then some salt_d29_d32
  else if version = 4278190111 then some salt_d29_d32
  else if version = 4278190112 then some salt_d29_d32
  else if version = 4278190113 then some salt_d33_v1
  else if version = 4278190114 then some salt_d33_v1
  else if version = 1 then some salt_d33_v1
  else none

/-- The four derived secrets of `quic_crypto_engine::process_initial_packet`:
`initial_secret = HMAC-SHA256(initial_salt, dcid)`, then
`kdf_tls13` with the labels `"tls13 client in"`, `"tls13 quic key"`,
`"tls13 quic iv"`, `"tls13 quic hp"` (the label arrays of quic.h, without
their terminating NUL) and output lengths 32, 16, 12 and 16. -/
def quic_initial_keys (version : Nat) (dcid : List Nat) :
    Option (List Nat × List Nat × List Nat × List Nat) :=
  match get_initial_salt version with
  | none => none
  | some salt =>
      let initial_secret := hmac_sha256 salt dcid
      let c_initial_secret := kdf_tls13 initial_secret (str_bytes "tls13 client in") 32
      some (c_initial_secret,
            kdf_tls13 c_initial_secret (str_bytes "tls13 quic key") 16,
            kdf_tls13 c_initial_secret (str_bytes "tls13 quic iv") 12,
            kdf_tls13 c_initial_secret (str_bytes "tls13 quic hp") 16)

/-- The RFC 9001 Appendix A destination connection ID. -/
def rfc9001_dcid : List Nat := [0x83, 0x94, 0xc8, 0xf0, 0x3e, 0x51, 0x57, 0x08]

/-! ## Part 6: the weighted naive-Bayes classifier
(`class naive_bayes`, `class fingerprint_data`, `classifier::perform_analysis`,
`classifier::analyze_fingerprint_and_destination_context`,
src/libmerc/analysis.h)

C `long double` arithmetic is idealized as `ℝ`, with `log` and `exp` the
real functions; the numeric-limits `lowest()` sentinel that seeds the
arg-max scan is an `Option ℝ` (`none` compares below everything, exactly
as `lowest()` does against every score).  The `unordered_map` update
tables are embedded as functions from the key type to the update list
(the map holds exactly the keys with a non-empty list, each mapped to
the updates in process order, which is what the C++ insertion order
produces).  The `attribute_result::bitset` of `result.h` and
`analysis_result` are modelled from the spec, as is the subnet lookup
`subnet_data::get_asn_info` (an opaque `String → Nat` collaborator) and
the watchlist (opaque membership predicates).
-/

structure process_info where
  name : String
  malware : Bool
  count : Nat
  attributes : Nat → Bool
  ip_as : List (Nat × Nat)
  hostname_domains : List (String × Nat)
  dst_port : List (Nat × Nat)
  ip_ip : List (String × Nat)
  hostname_sni : List (String × Nat)
  user_agent : List (String × Nat)
  os_info : List (String × Nat)

structure nb_update where
  index : Nat
  value : ℝ

structure feature_weights where
  as_w : ℝ
  domain_w : ℝ
  port_w : ℝ
  ip_w : ℝ
  sni_w : ℝ
  ua_w : ℝ

@[ext]
structure naive_bayes where
  total_count : Nat
  base_prior : ℝ
  process_prob : List ℝ
  as_number_updates : Nat → List nb_update
  port_updates : Nat → List nb_update
  hostname_domain_updates : String → List nb_update
  ip_ip_updates : String → List nb_update
  hostname_sni_updates : String → List nb_update
  user_agent_updates : String → List nb_update
  as_weight : ℝ
  domain_weight : ℝ
  port_weight : ℝ
  ip_weight : ℝ
  sni_weight : ℝ
  ua_weight : ℝ

noncomputable def nb_build_table {κ : Type} [DecidableEq κ]
    (procs : List process_info) (sel : process_info → List (κ × Nat))
    (total : Nat) (bp w : ℝ) : κ → List nb_update :=
  fun k =>
    (procs.enum.map (fun ip =>
      ((sel ip.2).filter (fun kc => kc.1 = k)).map
        (fun kc => ⟨ip.1, (Real.log ((kc.2 : ℝ) / (total : ℝ)) - bp) * w⟩))).flatten

noncomputable def naive_bayes_mk (procs : List process_info) (total : Nat)
    (w : feature_weights) : naive_bayes :=
  let bp : ℝ := Real.log (0.1 / (total : ℝ))
  let wsum := w.as_w + w.domain_w + w.port_w + w.ip_w + w.sni_w + w.ua_w
  { total_count := total
  , base_prior := bp
  , process_prob := procs.map (fun p =>
      max (Real.log ((p.count : ℝ) / (total : ℝ))) (Real.log 0.1) + bp * wsum)
  , as_number_updates := nb_build_table procs process_info.ip_as total bp w.as_w
  , port_updates := nb_build_table procs process_info.dst_port total bp w.port_w
  , hostname_domain_updates :=
      nb_build_table procs process_info.hostname_domains total bp w.domain_w
  , ip_ip_updates := nb_build_table procs process_info.ip_ip total bp w.ip_w
  , hostname_sni_updates :=
      nb_build_table procs process_info.hostname_sni total bp w.sni_w
  , user_agent_updates :=
      nb_build_table procs process_info.user_agent total bp w.ua_w
  , as_weight := w.as_w
  , domain_weight := w.domain_w
  , port_weight := w.port_w
  , ip_weight := w.ip_w
  , sni_weight := w.sni_w
  , ua_weight := w.ua_w }

noncomputable def nb_scale_updates (us : List nb_update) (nw ow : ℝ) : List nb_update :=
  us.map (fun u => ⟨u.index, u.value * nw / ow⟩)

open Classical in
noncomputable def naive_bayes_recompute (nb : naive_bayes) (nw : feature_weights) :
    naive_bayes :=
  if nw.as_w = nb.as_weight ∧ nw.domain_w = nb.domain_weight ∧
     nw.port_w = nb.port_weight ∧ nw.ip_w = nb.ip_weight ∧
     nw.sni_w = nb.sni_weight ∧ nw.ua_w = nb.ua_weight then nb
  else
    let old_weights := nb.base_prior * (nb.as_weight + nb.domain_weight +
      nb.port_weight + nb.ip_weight + nb.sni_weight + nb.ua_weight)
    let new_weights := nb.base_prior * (nw.as_w + nw.domain_w + nw.port_w +
      nw.ip_w + nw.sni_w + nw.ua_w)
    { nb with
      process_prob := nb.process_prob.map (fun p => p - old_weights + new_weights)
    , as_number_updates := fun k => nb_scale_updates (nb.as_number_updates k) nw.as_w nb.as_weight
    , port_updates := fun k => nb_scale_updates (nb.port_updates k) nw.port_w nb.port_weight
    , hostname_domain_updates := fun k =>
        nb_scale_updates (nb.hostname_domain_updates k) nw.domain_w nb.domain_weight
    , ip_ip_updates := fun k => nb_scale_updates (nb.ip_ip_updates k) nw.ip_w nb.ip_weight
    , hostname_sni_updates := fun k =>
        nb_scale_updates (nb.hostname_sni_updates k) nw.sni_w nb.sni_weight
    , user_agent_updates := fun k =>
        nb_scale_updates (nb.user_agent_updates k) nw.ua_w nb.ua_weight
    , as_weight := nw.as_w
    , domain_weight := nw.domain_w
    , port_weight := nw.port_w
    , ip_weight := nw.ip_w
    , sni_weight := nw.sni_w
    , ua_weight := nw.ua_w }

/-! analysis pipeline (C5) -/

noncomputable def nb_apply_updates (scores : List ℝ) (us : List nb_update) : List ℝ :=
  us.foldl (fun sc u => sc.set u.index (sc.getD u.index 0 + u.value)) scores

noncomputable def nb_classify (nb : naive_bayes) (asn_int : Nat) (dst_port : Nat)
    (domain server_name_str dst_ip_str : String) (user_agent : Option String) :
    List ℝ :=
  let s1 := nb_apply_updates nb.process_prob (nb.as_number_updates asn_int)
  let s2 := nb_apply_updates s1 (nb.port_updates dst_port)
  let s3 := nb_apply_updates s2 (nb.hostname_domain_updates domain)
  let s4 := nb_apply_updates s3 (nb.ip_ip_updates dst_ip_str)
  let s5 := nb_apply_updates s4 (nb.hostname_sni_updates server_name_str)
  match user_agent with
  | some ua => nb_apply_updates s5 (nb.user_agent_updates ua)
  | none => s5

structure fingerprint_data where
  malware : List Bool
  attr : List (Nat → Bool)
  process_name : List String
  process_os_info : List (List (String × Nat))
  nb : naive_bayes
  malware_db : Bool
  total_count : Nat

noncomputable def fingerprint_data_mk (total : Nat) (procs : List process_info)
    (malware_db : Bool) (w : feature_weights) : fingerprint_data :=
  { malware := procs.map process_info.malware
  , attr := procs.map process_info.attributes
  , process_name := procs.map process_info.name
  , process_os_info := procs.map process_info.os_info
  , nb := naive_bayes_mk procs total w
  , malware_db := malware_db
  , total_count := total }

def get_tld_domain_name (s : String) : String :=
  let parts := s.splitOn "."
  if parts.length ≤ 2 then s
  else String.intercalate "." (parts.drop (parts.length - 2))

open Classical in
noncomputable def argmax2_loop :
    List (Nat × ℝ) → Option ℝ × Option ℝ × Nat × Nat → Option ℝ × Option ℝ × Nat × Nat
  | [], st => st
  | (i, s) :: rest, (ms, ss, im, isec) =>
      if (match ms with | none => True | some m => m < s) then
        argmax2_loop rest (some s, ms, i, im)
      else if (match ss with | none => True | some m => m < s) then
        argmax2_loop rest (ms, some s, im, i)
      else argmax2_loop rest (ms, ss, im, isec)

noncomputable def argmax2 (scores : List ℝ) : Nat × Nat :=
  let st := argmax2_loop scores.enum (none, none, 0, 0)
  (st.2.2.1, st.2.2.2)

structure common_data_m where
  doh_contains : String → Bool
  doh_contains_addr : String → Bool
  doh_idx : Nat
  enc_channel_idx : Nat

structure attribute_result_m where
  tags : Nat → Bool
  prob : Nat → ℝ

def attr_set_attr (a : attribute_result_m) (idx : Nat) (p : ℝ) : attribute_result_m :=
  ⟨Function.update a.tags idx true, Function.update a.prob idx p⟩

inductive fingerprint_status where
  | labeled
  | unlabled
  | randomized
  | unanalyzed
deriving DecidableEq, Repr

structure analysis_result where
  status : fingerprint_status
  max_proc : String
  max_score : ℝ
  os_info : List (String × Nat)
  max_mal : Bool
  malware_prob : ℝ
  attr : attribute_result_m

noncomputable def analysis_result_of_status (st : fingerprint_status) : analysis_result :=
  ⟨st, "", 0, [], false, 0, ⟨fun _ => false, fun _ => 0⟩⟩

open Classical in
noncomputable def fd_perform_analysis (fd : fingerprint_data) (cm : common_data_m)
    (asn_int : Nat) (server_name dst_ip : String) (dst_port : Nat)
    (user_agent : Option String) (status : fingerprint_status) : analysis_result :=
  let domain := get_tld_domain_name server_name
  let process_score := nb_classify fd.nb asn_int dst_port domain server_name dst_ip user_agent
  let im0 := (argmax2 process_score).1
  let is0 := (argmax2 process_score).2
  let max_raw := process_score.getD im0 0
  let expd := process_score.map (fun s => Real.exp (s - max_raw))
  let score_sum := expd.sum
  let malware_prob0 := (((expd.zip fd.malware).filter (fun p => p.2)).map Prod.fst).sum
  let attr_prob0 : Nat → ℝ := fun j =>
    (((expd.zip fd.attr).filter (fun p => p.2 j)).map Prod.fst).sum
  let max_score0 := expd.getD im0 0
  let sec_score0 := expd.getD is0 0
  let malware_prob1 :=
    if 0 < score_sum ∧ fd.malware_db then malware_prob0 / score_sum else malware_prob0
  let promote := fd.malware_db ∧ fd.process_name.getD im0 "" = "generic dmz process" ∧
    fd.malware.getD is0 false = false
  let im1 := if promote then is0 else im0
  let score_sum1 := if promote then score_sum - max_score0 else score_sum
  let max_score1 := if promote then sec_score0 else max_score0
  let max_score2 := if 0 < score_sum1 then max_score1 / score_sum1 else max_score1
  let attr_prob1 : Nat → ℝ :=
    if 0 < score_sum1 then fun j => attr_prob0 j / score_sum1 else attr_prob0
  let attr_tags0 := fd.attr.getD im1 (fun _ => false)
  let doh_hit := cm.doh_contains server_name || cm.doh_contains_addr dst_ip
  let attr_tags1 := if doh_hit then Function.update attr_tags0 cm.doh_idx true else attr_tags0
  let attr_prob2 := if doh_hit then Function.update attr_prob1 cm.doh_idx 1 else attr_prob1
  let os := if 0 < fd.process_os_info.length then fd.process_os_info.getD im1 [] else []
  { status := status
  , max_proc := fd.process_name.getD im1 ""
  , max_score := max_score2
  , os_info := os
  , max_mal := if fd.malware_db then fd.malware.getD im1 false else false
  , malware_prob := if fd.malware_db then malware_prob1 else 0
  , attr := ⟨attr_tags1, attr_prob2⟩ }

inductive fingerprint_type where
  | tls
  | http
  | quic
  | tofsee
  | unknown
deriving DecidableEq, Repr

structure classifier_m where
  fpdb : List (String × fingerprint_data)
  prevalence : fingerprint_prevalence
  fp_types : List fingerprint_type
  common : common_data_m
  asn_of : String → Nat

def randomized_str_of (fp_str : String) : String :=
  String.mk (fp_str.data.takeWhile (fun c => c ≠ '(')) ++ "randomized"

noncomputable def classifier_perform_analysis (c : classifier_m)
    (fp_str server_name dst_ip : String) (dst_port : Nat) (ua : Option String) :
    analysis_result :=
  match c.fpdb.find? (fun e => e.1 = fp_str) with
  | some e => fd_perform_analysis e.2 c.common (c.asn_of dst_ip) server_name dst_ip
      dst_port ua .labeled
  | none =>
      if fp_contains c.prevalence fp_str then analysis_result_of_status .unlabled
      else
        match c.fpdb.find? (fun e => e.1 = randomized_str_of fp_str) with
        | none => analysis_result_of_status .randomized
        | some e => fd_perform_analysis e.2 c.common (c.asn_of dst_ip) server_name dst_ip
            dst_port ua .randomized

structure fingerprint_m where
  is_null : Bool
  typ : fingerprint_type
  str : String

structure destination_context where
  sn_str : String
  dst_ip_str : String
  dst_port : Nat
  ua_str : Option String

open Classical in
noncomputable def analyze_fp_and_dc (c : classifier_m) (fp : fingerprint_m)
    (dc : destination_context) (result0 : analysis_result) : analysis_result :=
  if fp.is_null then result0
  else if fp.typ ∉ c.fp_types then analysis_result_of_status .unanalyzed
  else
    let r := classifier_perform_analysis c fp.str dc.sn_str dc.dst_ip_str dc.dst_port dc.ua_str
    if r.max_mal = true ∧ fp.typ = .tls then
      { r with attr := attr_set_attr r.attr c.common.enc_channel_idx r.malware_prob }
    else r

def cmC5 : common_data_m := ⟨fun _ => false, fun _ => false, 0, 1⟩

def p0C5 : process_info := ⟨"p0", false, 1, fun _ => false, [], [], [], [], [], [], []⟩

def p1C5 : process_info := ⟨"p1", true, 1, fun _ => false, [], [], [], [], [], [], []⟩

noncomputable def fdC5 : fingerprint_data :=
  fingerprint_data_mk 2 [p0C5, p1C5] true ⟨1, 1, 1, 1, 1, 1⟩

noncomputable def cC5 : classifier_m :=
  ⟨[("tls/1/(x)", fdC5)], ⟨[], [], 100000⟩, [.tls], cmC5, fun _ => 0⟩

def fpC5 : fingerprint_m := ⟨false, .tls, "tls/1/(x)"⟩

def dcC5 : destination_context := ⟨"example.com", "1.2.3.4", 443, none⟩

def p0W : process_info := ⟨"w0", true, 1, fun _ => false, [], [], [], [], [], [], []⟩

noncomputable def fdW : fingerprint_data :=
  fingerprint_data_mk 1 [p0W] true ⟨1, 1, 1, 1, 1, 1⟩

noncomputable def cW : classifier_m :=
  ⟨[("tls/1/(y)", fdW)], ⟨[], [], 100000⟩, [.tls], cmC5, fun _ => 0⟩

def fpW : fingerprint_m := ⟨false, .tls, "tls/1/(y)"⟩

/-! ## Part 7: HTTP header parsing and lookup (`http.h`) — C10

`new_http_headers::parse` walks the message, parses each header with
`httpheader::parse`, looks the lowercased name up in the report list, and
stores the running header count in the `uint8_t` cell `hdr_indices[idx]`
whenever that cell still holds the sentinel `255`.  `get_header` reads
that cell back and returns the stored header's value.  The embedding
keeps the byte-level parsers (`delimiter`, `LWS`, `literal_byte<':'>`,
`datum::parse_up_to_delim`) faithful to `http.h`, with the `% 256`
truncation of the stored count made explicit.  -/

/-- Modelled from the spec: `datum::parse_up_to_delim` — split at the
first occurrence of the delimiter byte; the child is everything before
it and the parent is left positioned at it. -/
def parse_up_to_delim (d : Datum) (delim : Nat) : Datum × Datum :=
  match d with
  | some bs => (some (bs.takeWhile (fun b => b ≠ delim)),
                some (bs.dropWhile (fun b => b ≠ delim)))
  | none => (none, none)

/-- Modelled from the spec: `datum::parse_up_to_delimiters` with CR and
LF, used by `field_value`. -/
def parse_up_to_crlf (d : Datum) : Datum × Datum :=
  match d with
  | some bs => (some (bs.takeWhile (fun b => b ≠ 13 ∧ b ≠ 10)),
                some (bs.dropWhile (fun b => b ≠ 13 ∧ b ≠ 10)))
  | none => (none, none)

/-- Modelled from the spec: `literal_byte<':'>` — consume one byte that
must be a colon; anything else (or a short read) nulls the cursor. -/
def literal_colon (d : Datum) : Datum :=
  match d with
  | some (b :: rest) => if b = 58 then some rest else none
  | _ => none

/-- The skip loop of `class LWS` (http.h): advance over tabs and spaces. -/
def lws_skip_list : List Nat → List Nat
  | [] => []
  | b :: rest => if b = 9 ∨ b = 32 then lws_skip_list rest else b :: rest

/-- `class LWS` lifted to the cursor. -/
def lws_skip : Datum → Datum
  | some bs => some (lws_skip_list bs)
  | none => none

/-- `delimiter::delimiter(datum &p, const datum &del)` (http.h): consume
the caller-supplied delimiter if the input starts with it, else a CRLF,
else a LF; otherwise consume nothing and stay invalid. Returns the
delimiter view and the advanced cursor. -/
def delimiter_parse (p : Datum) (del : List Nat) : Datum × Datum :=
  match p with
  | none => (none, none)
  | some bs =>
      if del.isPrefixOf bs then (some (bs.take del.length), some (bs.drop del.length))
      else if [13, 10].isPrefixOf bs then (some (bs.take 2), some (bs.drop 2))
      else if [10].isPrefixOf bs then (some (bs.take 1), some (bs.drop 1))
      else (none, some bs)

/-- `struct httpheader` (http.h): the name and value views and the
validity flag (`valid = d.is_not_null()` after the member parses). -/
structure httpheader where
  name : List Nat
  value : List Nat
  valid : Bool
deriving DecidableEq, Repr

/-- The `httpheader(datum &d, datum del)` constructor: name up to the
colon, the colon, linear whitespace, value up to CR/LF, delimiter. -/
def httpheader_parse (d : Datum) (del : List Nat) : httpheader × Datum :=
  let (name_d, d1) := parse_up_to_delim d 58
  let d2 := literal_colon d1
  let d3 := lws_skip d2
  let (value_d, d4) := parse_up_to_crlf d3
  let (_, d5) := delimiter_parse d4 del
  (⟨datum_bytes name_d, datum_bytes value_d, d5 ≠ none⟩, d5)

/-- Modelled from the spec: the perfect hash over the fixed header-name
set — the index of the matching reported name, if any. -/
def ph_lookup : List String → List Nat → Option Nat
  | [], _ => none
  | s :: rest, nb =>
      if str_bytes s = nb then some 0 else (ph_lookup rest nb).map (· + 1)

/-- The state built by `new_http_headers<N>::parse`: the header vector
and the `hdr_indices` array (255 = `UINT8_MAX` = not seen). -/
structure http_headers_state where
  headers : List httpheader
  hdr_indices : List Nat
deriving DecidableEq, Repr

/-- `new_http_headers<N>::parse`, fuelled by the input length (each
iteration that continues consumes at least the colon byte).  Stop at the
end of input, at the end-of-headers delimiter, or at an invalid header;
for a reported header name, record the index of its first occurrence —
`hdr_indices[i] = headers.size()` truncated to `uint8_t`. -/
def new_http_headers_parse_loop (names : List String) (del : List Nat) :
    Nat → Datum → http_headers_state → http_headers_state
  | 0, _, st => st
  | fuel + 1, p, st =>
      if datum_is_not_empty p then
        let (dl, _) := delimiter_parse p del
        if datum_is_not_empty dl then st
        else
          let (h, p2) := httpheader_parse p del
          if h.valid = false then st
          else
            let st2 :=
              match ph_lookup names h.name with
              | some idx =>
                  if st.hdr_indices.getD idx 255 = 255 then
                    { st with hdr_indices := st.hdr_indices.set idx (st.headers.length % 256) }
                  else st
              | none => st
            new_http_headers_parse_loop names del fuel p2
              { st2 with headers := st2.headers ++ [h] }
      else st

/-- Run the header loop on a byte block with all-unseen indices. -/
def new_http_headers_parse (names : List String) (msg : List Nat) (del : List Nat) :
    http_headers_state :=
  new_http_headers_parse_loop names del (msg.length + 1) (some msg)
    ⟨[], List.replicate names.length 255⟩

/-- `http_request::get_header` / `new_http_headers::get_header`: look
up the recorded first-occurrence index of the reported name; `255`
means absent, and an index beyond the vector yields the null view. -/
def get_header_m (names : List String) (st : http_headers_state) (name : String) :
    Datum :=
  let idx := st.hdr_indices.getD (names.indexOf name) 255
  if idx ≠ 255 then
    match st.headers.get? idx with
    | some h => some h.value
    | none => none
  else none

/-- The request-side reported header set (`http_request::req_hdrs`). -/
def req_hdrs : List String :=
  ["user-agent", "host", "x-forwarded-for", "via", "upgrade", "referer"]

/-- The response-side reported header set (`http_response::resp_hdrs`). -/
def resp_hdrs : List String :=
  ["content-type", "content-length", "server", "via"]

/-- Render a list of header (name, value) pairs as the header block
bytes: `name: value CRLF` for each, then the empty-line terminator. -/
def render_headers (hs : List (List Nat × List Nat)) : List Nat :=
  (hs.map (fun nv => nv.1 ++ [58, 32] ++ nv.2 ++ [13, 10])).flatten ++ [13, 10]

/-- A header rendering that parses back to itself: non-empty name free
of colons and line breaks, value free of line breaks and not starting
with linear whitespace. -/
def wf_header (nv : List Nat × List Nat) : Prop :=
  nv.1 ≠ [] ∧ 58 ∉ nv.1 ∧ 13 ∉ nv.1 ∧ 10 ∉ nv.1 ∧ 13 ∉ nv.2 ∧ 10 ∉ nv.2 ∧
    (∀ b, nv.2.head? = some b → b ≠ 32 ∧ b ≠ 9)

/-- The per-header effect of the loop body on the state, used to state
the loop's behaviour on well-formed rendered input. -/
def headers_fold_step (names : List String) (st : http_headers_state)
    (nv : List Nat × List Nat) : http_headers_state :=
  let st2 :=
    match ph_lookup names nv.1 with
    | some idx =>
        if st.hdr_indices.getD idx 255 = 255 then
          { st with hdr_indices := st.hdr_indices.set idx (st.headers.length % 256) }
        else st
    | none => st
  { st2 with headers := st2.headers ++ [⟨nv.1, nv.2, true⟩] }

/-- The loop's effect on a whole well-formed header list. -/
def headers_fold (names : List String) (hs : List (List Nat × List Nat))
    (st : http_headers_state) : http_headers_state :=
  hs.foldl (headers_fold_step names) st

/-- The position of the first header with the given name bytes. -/
def find_first_hdr : List (List Nat × List Nat) → List Nat → Option Nat
  | [], _ => none
  | nv :: rest, nb =>
      if nv.1 = nb then some 0 else (find_first_hdr rest nb).map (· + 1)

/-! ## Part 8: the writer thread's k-way merge (`output.c`) — C2

`output_thread_func` merges the per-worker lockless queues with a
tournament tree.  The trace model below abstracts one queue to a list of
timestamps (head = `ridx` slot, the oldest message) and the thread's two
emission paths to two events, with the tournament idealized as "the
winning queue holds the minimum head":

* `push q t now` — a worker enqueues a message; the guard `last_le`
  renders the code's stated assumption that each lockless queue is in
  chronological order (the worker's timestamps never decrease);
* `ipop q now` — the in-order loop: it runs only while no queue is empty
  (`all_nonempty`, the tree not "stalled") and pops the tournament
  winner, the minimum head (`heads_ok`);
* `fpop q now` — the flush loop after a stall: it pops the winner only
  when its timestamp is older than `now - LLQ_MAX_AGE`, recording the
  flush flag and the clock used for the age test.

Clocks are per-event and non-decreasing (`s.clock ≤ now`), matching the
single writer thread reading `CLOCK_REALTIME`.  Each emission records
its timestamp, whether it came from the flush path, and the clock at
emission.  -/

def llq_max_age : Int := 5

structure llq_emission where
  ts : Int
  flush : Bool
  now : Int
deriving DecidableEq, Repr

structure writer_state where
  queues : List (List Int)
  lastTs : List (Option Int)
  clock : Int
  out : List llq_emission
deriving DecidableEq, Repr

inductive writer_ev where
  | push (q : Nat) (t : Int) (now : Int)
  | ipop (q : Nat) (now : Int)
  | fpop (q : Nat) (now : Int)
deriving DecidableEq, Repr

def last_le (o : Option Int) (t : Int) : Prop :=
  match o with
  | none => True
  | some l => l ≤ t

instance : (o : Option Int) → (t : Int) → Decidable (last_le o t)
  | none, _ => isTrue trivial
  | some l, t => inferInstanceAs (Decidable (l ≤ t))

def all_nonempty (qs : List (List Int)) : Bool :=
  qs.all fun l => !l.isEmpty

def heads_ok (qs : List (List Int)) (t : Int) : Bool :=
  qs.all fun l =>
    match l.head? with
    | none => true
    | some h => decide (t ≤ h)

def writer_step (s : writer_state) : writer_ev → Option writer_state
  | .push q t now =>
      if s.clock ≤ now ∧ q < s.queues.length ∧ last_le (s.lastTs.getD q none) t then
        some ⟨s.queues.set q (s.queues.getD q [] ++ [t]),
              s.lastTs.set q (some t), now, s.out⟩
      else none
  | .ipop q now =>
      match s.queues.getD q [] with
      | [] => none
      | t :: rest =>
          if s.clock ≤ now ∧ all_nonempty s.queues = true ∧ heads_ok s.queues t = true then
            some ⟨s.queues.set q rest, s.lastTs, now,
                  s.out ++ [⟨t, false, now⟩]⟩
          else none
  | .fpop q now =>
      match s.queues.getD q [] with
      | [] => none
      | t :: rest =>
          if s.clock ≤ now ∧ t < now - llq_max_age ∧ heads_ok s.queues t = true then
            some ⟨s.queues.set q rest, s.lastTs, now,
                  s.out ++ [⟨t, true, now⟩]⟩
          else none

def writer_run (s : writer_state) : List writer_ev → Option writer_state
  | [] => some s
  | e :: evs =>
      match writer_step s e with
      | none => none
      | some s2 => writer_run s2 evs

def writer_init (n : Nat) : writer_state :=
  ⟨List.replicate n [], List.replicate n none, 0, []⟩

def timely : writer_ev → Prop
  | .push _ t now => now - llq_max_age ≤ t
  | .ipop _ _ => True
  | .fpop _ _ => True

instance : (e : writer_ev) → Decidable (timely e)
  | .push _ t now => inferInstanceAs (Decidable (now - llq_max_age ≤ t))
  | .ipop _ _ => isTrue trivial
  | .fpop _ _ => isTrue trivial

def state_wf (s : writer_state) : Prop :=
  s.lastTs.length = s.queues.length ∧
  ∀ i, i < s.queues.length →
    (s.queues.getD i []).Sorted (· ≤ ·) ∧
    ∀ x ∈ s.queues.getD i [], ∃ l, s.lastTs.getD i none = some l ∧ x ≤ l

def emit_bound (s : writer_state) (y : llq_emission) : Prop :=
  (∀ i, i < s.queues.length →
     (∀ x ∈ s.queues.getD i [], y.ts ≤ x) ∧
     ∃ l, s.lastTs.getD i none = some l ∧ y.ts ≤ l) ∨
  (y.flush = true ∧ y.ts < y.now - llq_max_age)

def inv_A (s : writer_state) : Prop :=
  state_wf s ∧
  (∀ y ∈ s.out, emit_bound s y) ∧
  s.out.Pairwise (fun y z => z.ts < y.ts → y.flush = true ∧ y.ts < y.now - llq_max_age)

def emit_bound_B (s : writer_state) (y : llq_emission) : Prop :=
  ∀ i, i < s.queues.length →
    (∀ x ∈ s.queues.getD i [], y.ts ≤ x) ∧
    ((∃ l, s.lastTs.getD i none = some l ∧ y.ts ≤ l) ∨ y.ts ≤ s.clock - llq_max_age)

def inv_B (s : writer_state) : Prop :=
  state_wf s ∧
  (∀ y ∈ s.out, emit_bound_B s y) ∧
  s.out.Pairwise (fun y z => y.ts ≤ z.ts)

/-- C1, counterexample: with two real queues whose head slots both have
`used == false`, `queue_less` returns 0 on the first check
(`if (ql_used == 0) return 0;`), so `lesser_queue` returns the RIGHT
queue — the claim says the left queue wins deterministically. -/
theorem queue_less_both_unused_right_wins :
    (head_msg tqC1 0).used = false ∧ (head_msg tqC1 1).used = false ∧
    lesser_queue tqC1 0 1 = 1 := by
  decide

/-- C1 (amended): in `queue_less`/`lesser_queue`, the `-1` sentinel always
loses to the other side; a virtual queue index (`>= N`) loses to any real
queue (but beats a left-side `-1` or left-side virtual index, because the
checks are ordered left-first); among two real queues, if exactly one head
slot is unused the other queue wins, and if both head slots are unused the
RIGHT queue wins deterministically. -/
theorem queue_less_amended (tq : thread_queues) (ql qr : Int) :
    (ql = -1 → lesser_queue tq ql qr = qr)
  ∧ (ql ≠ -1 → qr = -1 → lesser_queue tq ql qr = ql)
  ∧ (0 ≤ ql → ql < (tq.qnum : Int) → (tq.qnum : Int) ≤ qr →
       lesser_queue tq ql qr = ql)
  ∧ ((tq.qnum : Int) ≤ ql → qr ≠ -1 → lesser_queue tq ql qr = qr)
  ∧ (0 ≤ ql → ql < (tq.qnum : Int) → 0 ≤ qr → qr < (tq.qnum : Int) →
       (head_msg tq ql.toNat).used = true → (head_msg tq qr.toNat).used = false →
       lesser_queue tq ql qr = ql)
  ∧ (0 ≤ ql → ql < (tq.qnum : Int) → 0 ≤ qr → qr < (tq.qnum : Int) →
       (head_msg tq ql.toNat).used = false →
       lesser_queue tq ql qr = qr) := by
  refine ⟨?_, ?_, ?_, ?_, ?_, ?_⟩ <;> intros <;>
    simp only [lesser_queue, queue_less] <;> split_ifs <;>
    simp_all <;> omega

/-- C1 witness: the amended theorem applied at the concrete two-queue
state `tqC1` with both head slots unused yields the right queue. -/
theorem queue_less_amended_witness : lesser_queue tqC1 0 1 = 1 :=
  (queue_less_amended tqC1 0 1).2.2.2.2.2 (by decide) (by decide) (by decide)
    (by decide) (by decide)

theorem fp_update_length_le (st : fingerprint_prevalence) (fp : String)
    (hcap : 0 < st.max_cache_size_) (h : st.list_.length ≤ st.max_cache_size_) :
    (fp_update st fp).list_.length ≤ st.max_cache_size_ := by
  unfold fp_update
  by_cases h1 : fp ∈ st.known_set_
  · rw [if_pos h1]
    exact h
  · rw [if_neg h1]
    by_cases h2 : fp ∈ st.list_
    · have he := List.length_erase_of_mem h2
      have hpos : 0 < st.list_.length := List.length_pos_of_mem h2
      simp only [if_pos h2, List.length_cons, he]
      omega
    · by_cases h3 : st.list_.length = st.max_cache_size_
      · simp only [if_neg h2, if_pos h3, List.length_cons, List.length_dropLast]
        omega
      · simp only [if_neg h2, if_neg h3, List.length_cons]
        omega

theorem fp_update_cap_eq (st : fingerprint_prevalence) (fp : String) :
    (fp_update st fp).max_cache_size_ = st.max_cache_size_ := by
  unfold fp_update
  split_ifs <;> rfl

theorem prevalence_apply_length_le (st : fingerprint_prevalence) (op : prevalence_op)
    (hcap : 0 < st.max_cache_size_) (h : st.list_.length ≤ st.max_cache_size_) :
    (prevalence_apply st op).list_.length ≤ (prevalence_apply st op).max_cache_size_ ∧
      (prevalence_apply st op).max_cache_size_ = st.max_cache_size_ := by
  cases op with
  | add fp => exact ⟨h, rfl⟩
  | upd fp =>
      refine ⟨?_, fp_update_cap_eq st fp⟩
      simp only [prevalence_apply]
      rw [fp_update_cap_eq st fp]
      exact fp_update_length_le st fp hcap h
  | upd_contended fp => exact ⟨h, rfl⟩
  | query fp => exact ⟨h, rfl⟩

theorem prevalence_run_length_le (ops : List prevalence_op) :
    ∀ st : fingerprint_prevalence, 0 < st.max_cache_size_ →
      st.list_.length ≤ st.max_cache_size_ →
      (prevalence_run st ops).list_.length ≤ st.max_cache_size_ := by
  induction ops with
  | nil => intro st _ h; exact h
  | cons op rest ih =>
      intro st hcap h
      have step := prevalence_apply_length_le st op hcap h
      have h2 := ih (prevalence_apply st op) (step.2 ▸ hcap) step.1
      simpa [prevalence_run, step.2] using h2

/-- Feeding fresh, pairwise distinct fingerprints that fit below the cap
prepends them (reversed) to the adaptive list, with no eviction. -/
theorem prevalence_feed_no_evict (fps : List String) :
    ∀ st : fingerprint_prevalence,
      fps.length + st.list_.length ≤ st.max_cache_size_ →
      (∀ f ∈ fps, f ∉ st.known_set_) →
      (∀ f ∈ fps, f ∉ st.list_) →
      fps.Nodup →
      prevalence_feed st fps = { st with list_ := fps.reverse ++ st.list_ } := by
  induction fps with
  | nil => intro st _ _ _ _; rfl
  | cons f rest ih =>
      intro st hlen hknown hlist hnodup
      have hfk : f ∉ st.known_set_ := hknown f (List.mem_cons_self f rest)
      have hfl : f ∉ st.list_ := hlist f (List.mem_cons_self f rest)
      have hne : st.list_.length ≠ st.max_cache_size_ := by
        simp only [List.length_cons] at hlen
        omega
      have hstep : fp_update st f = { st with list_ := f :: st.list_ } := by
        simp only [fp_update, if_neg hfk, if_neg hfl, if_neg hne]
      have hrest := ih { st with list_ := f :: st.list_ }
        (by simp only [List.length_cons] at hlen ⊢; omega)
        (fun g hg => hknown g (List.mem_cons_of_mem f hg))
        (by
          intro g hg
          simp only [List.mem_cons]
          push_neg
          refine ⟨?_, hlist g (List.mem_cons_of_mem f hg)⟩
          intro hgf
          rw [hgf] at hg
          exact (List.nodup_cons.mp hnodup).1 hg)
        (List.nodup_cons.mp hnodup).2
      calc prevalence_feed st (f :: rest)
          = prevalence_feed { st with list_ := f :: st.list_ } rest := by
            simp [prevalence_feed, hstep]
        _ = { st with list_ := rest.reverse ++ (f :: st.list_) } := hrest
        _ = { st with list_ := (f :: rest).reverse ++ st.list_ } := by
            simp

/-- C3: the adaptive LRU never exceeds its cap — starting from the
classifier's `fp_prevalence{100000}`, any sequence of `initial_add`,
`contains` and `update` calls leaves at most 100000 adaptive entries —
and feeding `cap + 1` distinct fingerprints, none of them known, through
`update` (every try-lock succeeding) leaves exactly `cap` entries with
the first-inserted fingerprint evicted. -/
theorem fp_prevalence_cap_bound (ops : List prevalence_op) (cap : Nat)
    (fps known : List String) (f0 : String)
    (hcap : 0 < cap) (h1 : fps.length = cap + 1) (h2 : fps.Nodup)
    (h3 : ∀ f ∈ fps, f ∉ known) (h4 : fps.head? = some f0) :
    (prevalence_run classifier_fp_prevalence ops).list_.length ≤ 100000 ∧
    (prevalence_feed ⟨[], known, cap⟩ fps).list_.length = cap ∧
    f0 ∉ (prevalence_feed ⟨[], known, cap⟩ fps).list_ := by
  refine ⟨?_, ?_⟩
  · exact prevalence_run_length_le ops classifier_fp_prevalence (by decide)
      (by decide)
  · -- split fps into its first cap elements and its final element
    obtain ⟨z, hz⟩ : ∃ z, fps.drop cap = [z] := by
      have hlen : (fps.drop cap).length = 1 := by
        rw [List.length_drop, h1]
        omega
      match hd : fps.drop cap with
      | [] => rw [hd] at hlen; simp at hlen
      | [z] => exact ⟨z, rfl⟩
      | z :: w :: rest => rw [hd] at hlen; simp at hlen
    set ys := fps.take cap with hys
    have hsplit : fps = ys ++ [z] := by
      rw [hys, ← hz, List.take_append_drop]
    have hyslen : ys.length = cap := by
      rw [hys, List.length_take, h1]
      omega
    have hysnodup : ys.Nodup := by
      rw [hsplit] at h2
      exact (List.nodup_append.mp h2).1
    have hznotys : z ∉ ys := by
      rw [hsplit] at h2
      intro hmem
      exact (List.nodup_append.mp h2).2.2 hmem (List.mem_singleton_self z)
    have hfeed1 : prevalence_feed ⟨[], known, cap⟩ ys =
        ⟨ys.reverse, known, cap⟩ := by
      have hh := prevalence_feed_no_evict ys ⟨[], known, cap⟩
        (by simp [hyslen])
        (fun f hf => h3 f (hsplit ▸ List.mem_append_left [z] hf))
        (by simp)
        hysnodup
      simpa using hh
    have hzknown : z ∉ known :=
      h3 z (hsplit ▸ List.mem_append_right ys (List.mem_singleton_self z))
    have hfeed2 : prevalence_feed ⟨[], known, cap⟩ fps =
        fp_update (prevalence_feed ⟨[], known, cap⟩ ys) z := by
      rw [hsplit]
      simp [prevalence_feed, List.foldl_append]
    have hupd : fp_update (⟨ys.reverse, known, cap⟩ : fingerprint_prevalence) z =
        ⟨z :: ys.reverse.dropLast, known, cap⟩ := by
      simp only [fp_update, if_neg hzknown]
      rw [if_neg (by simpa using hznotys), if_pos (by simp [hyslen])]
    rw [hfeed2, hfeed1, hupd]
    constructor
    · simp only [List.length_cons, List.length_dropLast, List.length_reverse, hyslen]
      omega
    · -- f0 is the head of ys, and ys.reverse.dropLast drops exactly f0
      obtain ⟨y0, ytail, hy⟩ : ∃ y0 ytail, ys = y0 :: ytail := by
        match hys2 : ys with
        | [] =>
            exfalso
            simp only [List.length_nil] at hyslen
            omega
        | y0 :: ytail => exact ⟨y0, ytail, rfl⟩
      have hf0 : f0 = y0 := by
        rw [hsplit, hy] at h4
        simp at h4
        exact h4.symm
      rw [hy, hf0]
      simp only [List.reverse_cons, List.dropLast_concat, List.mem_cons]
      push_neg
      constructor
      · intro hc
        apply hznotys
        rw [hy, ← hc]
        exact List.mem_cons_self y0 ytail
      · rw [List.mem_reverse]
        intro hc
        have hnd := hy ▸ hysnodup
        exact (List.nodup_cons.mp hnd).1 hc

/-- C3 witness: the theorem instantiated at cap 2 with three distinct
fresh fingerprints; the adaptive set ends with exactly two entries and
the first-inserted fingerprint is gone. -/
theorem fp_prevalence_cap_bound_witness :
    (prevalence_run classifier_fp_prevalence []).list_.length ≤ 100000 ∧
    (prevalence_feed ⟨[], [], 2⟩ ["a", "b", "c"]).list_.length = 2 ∧
    "a" ∉ (prevalence_feed ⟨[], [], 2⟩ ["a", "b", "c"]).list_ :=
  fp_prevalence_cap_bound [] 2 ["a", "b", "c"] [] "a"
    (by decide) (by decide) (by decide) (by decide) (by decide)

/-- C4: evaluating the constructor's scan at an archive that contains the
optional `pyasn.db` but no `VERSION` entry shows that no error is thrown:
the `pyasn.db` branch sets `got_version = true`, so the required-entry
check cannot see that `VERSION` is absent. -/
theorem classifier_missing_version_not_fatal :
    "VERSION" ∉ archive_missing_version.map archive_entry.name ∧
    classifier_init_throws false archive_missing_version = false ∧
    classifier_init_throws true archive_missing_version = false := by
  decide

theorem read_uint8_len (d : Datum) : datum_len (read_uint8 d).2 ≤ datum_len d := by
  match d with
  | some (b :: rest) => simp [read_uint8, datum_len, datum_bytes]
  | some [] => simp [read_uint8, datum_len, datum_bytes]
  | none => simp [read_uint8, datum_len, datum_bytes]

theorem varint_loop_len (n : Nat) : ∀ v d, datum_len (varint_loop n v d).2 ≤ datum_len d := by
  induction n with
  | zero => intro v d; simp [varint_loop]
  | succ n ih =>
      intro v d
      simp only [varint_loop]
      exact le_trans (ih _ _) (read_uint8_len d)

theorem variable_length_integer_len (d : Datum) :
    datum_len (variable_length_integer d).2 ≤ datum_len d := by
  simp only [variable_length_integer]
  exact le_trans (varint_loop_len _ _ _) (read_uint8_len d)

theorem datum_parse_len (d : Datum) (n : Nat) :
    datum_len (datum_parse d n).2 ≤ datum_len d := by
  match d with
  | some bs =>
      simp only [datum_parse]
      split_ifs with h
      · simp [datum_len, datum_bytes]
      · simp [datum_len, datum_bytes]
  | none => simp [datum_parse, datum_len, datum_bytes]

theorem ack_ranges_loop_len (n : Nat) : ∀ d, datum_len (ack_ranges_loop n d) ≤ datum_len d := by
  induction n with
  | zero => intro d; simp [ack_ranges_loop]
  | succ n ih =>
      intro d
      simp only [ack_ranges_loop]
      exact le_trans (ih _)
        (le_trans (variable_length_integer_len _) (variable_length_integer_len d))

theorem crypto_parse_len (p : Datum) : datum_len (crypto_parse p).2 ≤ datum_len p := by
  simp only [crypto_parse]
  exact le_trans (datum_parse_len _ _)
    (le_trans (variable_length_integer_len _) (variable_length_integer_len p))

theorem ack_parse_len (d : Datum) : datum_len (ack_parse d).2 ≤ datum_len d := by
  simp only [ack_parse]
  exact le_trans (ack_ranges_loop_len _ _)
    (le_trans (variable_length_integer_len _)
      (le_trans (variable_length_integer_len _)
        (le_trans (variable_length_integer_len _) (variable_length_integer_len d))))

theorem connection_close_parse_len (p : Datum) :
    datum_len (connection_close_parse p).2 ≤ datum_len p := by
  simp only [connection_close_parse]
  exact le_trans (datum_parse_len _ _)
    (le_trans (variable_length_integer_len _)
      (le_trans (variable_length_integer_len _) (variable_length_integer_len p)))

/-- Parsing one frame from a non-empty cursor strictly consumes bytes. -/
theorem quic_frame_parse_len (t : Nat) (rest : List Nat) :
    datum_len (quic_frame_parse (some (t :: rest))).2 ≤ rest.length := by
  simp only [quic_frame_parse]
  split_ifs with h1 h2 h3 h4 h5
  · exact le_trans (crypto_parse_len (some rest)) (by simp [datum_len, datum_bytes])
  · exact le_trans (connection_close_parse_len (some rest)) (by simp [datum_len, datum_bytes])
  · simp [datum_len, datum_bytes]
  · simp [datum_len, datum_bytes]
  · exact le_trans (ack_parse_len (some rest)) (by simp [datum_len, datum_bytes])
  · simp [datum_len, datum_bytes]

/-- Fuel adequacy for the frame loop: with more fuel than remaining
bytes the loop's result is determined by its own exit conditions, not
by the fuel running out. -/
theorem quic_frames_loop_fuel_sufficient (fuel : Nat) :
    ∀ fuel2 d st, datum_len d < fuel → datum_len d < fuel2 →
      quic_frames_loop fuel d st = quic_frames_loop fuel2 d st := by
  induction fuel with
  | zero => intro fuel2 d st h _; omega
  | succ fuel ih =>
      intro fuel2 d st h h2
      match fuel2 with
      | 0 => omega
      | fuel2 + 1 =>
          simp only [quic_frames_loop]
          match d with
          | none => simp [datum_is_not_empty]
          | some [] => simp [datum_is_not_empty]
          | some (t :: rest) =>
              simp only [datum_is_not_empty, if_pos]
              have hlen := quic_frame_parse_len t rest
              have hd : datum_len (some (t :: rest)) = rest.length + 1 := by
                simp [datum_len, datum_bytes]
              rw [hd] at h h2
              split_ifs with hmono
              · rfl
              · exact ih fuel2 _ _ (by omega) (by omega)

/-- C8: the frame parser of the decrypted QUIC initial payload
recognizes exactly the type bytes PADDING(0x00), PING(0x01), ACK(0x02),
CRYPTO(0x06) and CONNECTION_CLOSE(0x1c) — every other type byte yields
the invalid (`monostate`) alternative — and the frame loop of
`quic_init::quic_init` stops at the first frame whose type byte is any
other value, leaving its state untouched and ignoring the remainder of
the plaintext. -/
theorem quic_frame_types (t : Nat) (rest : List Nat) (st : quic_init_state)
    (fuel : Nat) (h : t ∉ [0x00, 0x01, 0x02, 0x06, 0x1c]) :
    (∀ (u : Nat) (rest2 : List Nat),
        quic_frame_is_valid (quic_frame_parse (some (u :: rest2))).1 = true ↔
          u ∈ [0x00, 0x01, 0x02, 0x06, 0x1c])
  ∧ quic_frames_loop (fuel + 1) (some (t :: rest)) st = st := by
  constructor
  · intro u rest2
    simp only [quic_frame_parse, quic_frame_is_valid]
    split_ifs with h1 h2 h3 h4 h5 <;> simp_all
  · simp only [List.mem_cons, List.mem_singleton] at h
    push_neg at h
    obtain ⟨hn0, hn1, hn2, hn6, hn1c, -⟩ := h
    simp only [quic_frames_loop, datum_is_not_empty, if_pos]
    have hp : quic_frame_parse (some (t :: rest)) = (.monostate, some rest) := by
      simp only [quic_frame_parse, if_neg hn6, if_neg hn1c, if_neg hn0,
        if_neg hn1, if_neg hn2]
    rw [hp]
    simp

/-- C8 witness: at the concrete one-byte plaintext `[0x03]` (a
RESET_STREAM type byte) the loop stops at once with its initial state. -/
theorem quic_frame_types_witness :
    (∀ (u : Nat) (rest2 : List Nat),
        quic_frame_is_valid (quic_frame_parse (some (u :: rest2))).1 = true ↔
          u ∈ [0x00, 0x01, 0x02, 0x06, 0x1c])
  ∧ quic_frames_loop 1 (some [0x03]) quic_init_state_init = quic_init_state_init :=
  quic_frame_types 0x03 [] quic_init_state_init 0 (by decide)

theorem write_bytes_length (buf data : List Nat) (off : Nat)
    (h : off + data.length ≤ buf.length) :
    (write_bytes buf off data).length = buf.length := by
  simp only [write_bytes, List.length_append, List.length_take, List.length_drop]
  omega

theorem cbuf_extend_buffer_length (b : cryptographic_buffer) (c : crypto)
    (hb : b.buffer.length = pt_buf_len)
    (hc : (datum_bytes c.data).length = c.len) :
    (cbuf_extend b c).buffer.length = pt_buf_len := by
  by_cases h1 : c.off + c.len ≤ pt_buf_len
  · unfold cbuf_extend
    rw [if_pos h1]
    show (write_bytes b.buffer c.off (datum_bytes c.data)).length = pt_buf_len
    rw [write_bytes_length b.buffer (datum_bytes c.data) c.off (by rw [hc, hb]; exact h1)]
    exact hb
  · unfold cbuf_extend
    rw [if_neg h1]
    exact hb

theorem cbuf_fold_buffer_length (cs : List crypto) :
    ∀ b : cryptographic_buffer, b.buffer.length = pt_buf_len →
      (∀ c ∈ cs, (datum_bytes c.data).length = c.len) →
      (cs.foldl cbuf_extend b).buffer.length = pt_buf_len := by
  induction cs with
  | nil => intro b hb _; exact hb
  | cons c rest ih =>
      intro b hb hc
      simp only [List.foldl_cons]
      exact ih (cbuf_extend b c)
        (cbuf_extend_buffer_length b c hb (hc c (List.mem_cons_self c rest)))
        (fun x hx => hc x (List.mem_cons_of_mem c hx))

theorem cbuf_fold_buf_len (cs : List crypto) :
    ∀ b : cryptographic_buffer,
      (cs.foldl cbuf_extend b).buf_len =
        ((cs.filter (fun c => c.off + c.len ≤ pt_buf_len)).map
          (fun c => c.off + c.len)).foldl max b.buf_len := by
  induction cs with
  | nil => intro b; rfl
  | cons c rest ih =>
      intro b
      simp only [List.foldl_cons]
      by_cases h1 : c.off + c.len ≤ pt_buf_len
      · have hstep : (cbuf_extend b c).buf_len = max b.buf_len (c.off + c.len) := by
          unfold cbuf_extend
          rw [if_pos h1]
          show (if c.off + c.len > b.buf_len then c.off + c.len else b.buf_len) =
            max b.buf_len (c.off + c.len)
          rw [Nat.max_def]
          split_ifs <;> omega
        rw [List.filter_cons_of_pos (by simpa using h1), List.map_cons,
          List.foldl_cons, ih (cbuf_extend b c), hstep]
      · have hstep : cbuf_extend b c = b := by
          unfold cbuf_extend
          rw [if_neg h1]
        rw [List.filter_cons_of_neg (by simpa using h1), ih (cbuf_extend b c), hstep]

theorem foldl_max_le (l : List Nat) (cap : Nat) :
    ∀ a, a ≤ cap → (∀ x ∈ l, x ≤ cap) → l.foldl max a ≤ cap := by
  induction l with
  | nil => intro a ha _; exact ha
  | cons x rest ih =>
      intro a ha hx
      simp only [List.foldl_cons]
      exact ih (max a x) (max_le ha (hx x (List.mem_cons_self x rest)))
        (fun y hy => hx y (List.mem_cons_of_mem x hy))

/-- C9: `cryptographic_buffer::extend` never writes outside the fixed
`pt_buf_len`-byte reassembly buffer: a fragment with
`offset + length > pt_buf_len` leaves the buffer and `buf_len`
unchanged; and after any sequence of `extend` calls (each fragment
carrying exactly `length` data bytes, as `crypto::is_valid` guarantees
at the call site) the buffer still holds exactly `pt_buf_len` bytes,
and `buf_len` equals the maximum `offset + length` over the accepted
fragments — in particular `buf_len` never exceeds `pt_buf_len`. -/
theorem cryptographic_buffer_extend_bounds (cs : List crypto)
    (h : ∀ c ∈ cs, (datum_bytes c.data).length = c.len) :
    (∀ (b : cryptographic_buffer) (c : crypto),
        pt_buf_len < c.off + c.len → cbuf_extend b c = b)
  ∧ (cs.foldl cbuf_extend crypto_buffer_init).buffer.length = pt_buf_len
  ∧ (cs.foldl cbuf_extend crypto_buffer_init).buf_len =
      ((cs.filter (fun c => c.off + c.len ≤ pt_buf_len)).map
        (fun c => c.off + c.len)).foldl max 0
  ∧ (cs.foldl cbuf_extend crypto_buffer_init).buf_len ≤ pt_buf_len := by
  refine ⟨?_, ?_, ?_, ?_⟩
  · intro b c hc
    unfold cbuf_extend
    rw [if_neg (by omega)]
  · exact cbuf_fold_buffer_length cs crypto_buffer_init (by simp [crypto_buffer_init]) h
  · exact cbuf_fold_buf_len cs crypto_buffer_init
  · rw [cbuf_fold_buf_len cs crypto_buffer_init]
    refine foldl_max_le _ _ _ (by simp [crypto_buffer_init]) ?_
    intro x hx
    simp only [List.mem_map, List.mem_filter] at hx
    obtain ⟨c, ⟨_, hc2⟩, hc3⟩ := hx
    rw [← hc3]
    simpa using hc2

/-- C9 witness: one accepted fragment (two bytes at offset 0) and one
rejected fragment (two bytes at offset 4095): the buffer keeps its 4096
bytes and `buf_len` is the accepted fragment's end, 2. -/
theorem cryptographic_buffer_extend_bounds_witness :
    (∀ (b : cryptographic_buffer) (c : crypto),
        pt_buf_len < c.off + c.len → cbuf_extend b c = b)
  ∧ ([⟨0, 2, some [1, 2]⟩, ⟨4095, 2, some [3, 4]⟩].foldl cbuf_extend
      crypto_buffer_init).buffer.length = pt_buf_len
  ∧ ([⟨0, 2, some [1, 2]⟩, ⟨4095, 2, some [3, 4]⟩].foldl cbuf_extend
      crypto_buffer_init).buf_len =
      (([⟨0, 2, some [1, 2]⟩, ⟨4095, 2, some [3, 4]⟩].filter
          (fun c : crypto => c.off + c.len ≤ pt_buf_len)).map
        (fun c => c.off + c.len)).foldl max 0
  ∧ ([⟨0, 2, some [1, 2]⟩, ⟨4095, 2, some [3, 4]⟩].foldl cbuf_extend
      crypto_buffer_init).buf_len ≤ pt_buf_len :=
  cryptographic_buffer_extend_bounds
    [⟨0, 2, some [1, 2]⟩, ⟨4095, 2, some [3, 4]⟩] (by decide)

set_option maxRecDepth 1000000 in
/-- C6: for QUIC version 1 the initial salt is
`38762cf7f55934b34d179ae6a4c80cadccbb7f0a`, the initial secret is
`HKDF-Extract(salt, DCID) = HMAC-SHA256(salt, DCID)`, and for the DCID
`8394c8f03e515708` the derived client initial secret, `quic_key`,
`quic_iv` and `quic_hp` equal the RFC 9001 Appendix A values. -/
theorem quic_v1_rfc9001_keys :
    get_initial_salt 1 = some salt_d33_v1 ∧
    hmac_sha256 salt_d33_v1 rfc9001_dcid =
      [0x7d, 0xb5, 0xdf, 0x06, 0xe7, 0xa6, 0x9e, 0x43, 0x24, 0x96, 0xad, 0xed,
       0xb0, 0x08, 0x51, 0x92, 0x35, 0x95, 0x22, 0x15, 0x96, 0xae, 0x2a, 0xe9,
       0xfb, 0x81, 0x15, 0xc1, 0xe9, 0xed, 0x0a, 0x44] ∧
    quic_initial_keys 1 rfc9001_dcid =
      some ([0xc0, 0x0c, 0xf1, 0x51, 0xca, 0x5b, 0xe0, 0x75, 0xed, 0x0e, 0xbf, 0xb5,
             0xc8, 0x03, 0x23, 0xc4, 0x2d, 0x6b, 0x7d, 0xb6, 0x78, 0x81, 0x28, 0x9a,
             0xf4, 0x00, 0x8f, 0x1f, 0x6c, 0x35, 0x7a, 0xea],
            [0x1f, 0x36, 0x96, 0x13, 0xdd, 0x76, 0xd5, 0x46, 0x77, 0x30, 0xef, 0xcb,
             0xe3, 0xb1, 0xa2, 0x2d],
            [0xfa, 0x04, 0x4b, 0x2f, 0x42, 0xa3, 0xfd, 0x3b, 0x46, 0xfb, 0x25, 0x5c],
            [0x9f, 0x50, 0x44, 0x9e, 0x04, 0xa0, 0xe8, 0x10, 0x28, 0x3a, 0x1e, 0x99,
             0x33, 0xad, 0xed, 0xd2]) := by
  refine ⟨by decide, by decide, by decide⟩

theorem nb_scale_build_table {κ : Type} [DecidableEq κ]
    (procs : List process_info) (sel : process_info → List (κ × Nat))
    (total : Nat) (bp : ℝ) (ow nw : ℝ) (how : ow ≠ 0) (k : κ) :
    nb_scale_updates (nb_build_table procs sel total bp ow k) nw ow =
      nb_build_table procs sel total bp nw k := by
  simp only [nb_scale_updates, nb_build_table, List.map_flatten, List.map_map]
  congr 1
  apply List.map_congr_left
  intro ip _
  simp only [Function.comp, List.map_map]
  apply List.map_congr_left
  intro kc _
  simp only [Function.comp]
  congr 1
  field_simp
  ring

/-- C7: with all six current feature weights nonzero,
`naive_bayes::recompute_probabilities` with six new weights leaves the
naive-Bayes state (the cached `process_prob` vector and every
per-feature update table) exactly equal to the state produced by the
`naive_bayes` constructor run from scratch on the same processes and
total count with the new weights. -/
theorem naive_bayes_recompute_equiv (procs : List process_info) (total : Nat)
    (ow nw : feature_weights)
    (h1 : ow.as_w ≠ 0) (h2 : ow.domain_w ≠ 0) (h3 : ow.port_w ≠ 0)
    (h4 : ow.ip_w ≠ 0) (h5 : ow.sni_w ≠ 0) (h6 : ow.ua_w ≠ 0) :
    naive_bayes_recompute (naive_bayes_mk procs total ow) nw =
      naive_bayes_mk procs total nw := by
  by_cases hg : nw.as_w = ow.as_w ∧ nw.domain_w = ow.domain_w ∧
      nw.port_w = ow.port_w ∧ nw.ip_w = ow.ip_w ∧
      nw.sni_w = ow.sni_w ∧ nw.ua_w = ow.ua_w
  · have hw : nw = ow := by
      obtain ⟨g1, g2, g3, g4, g5, g6⟩ := hg
      cases nw; cases ow; simp_all
    subst hw
    rw [naive_bayes_recompute, if_pos ⟨rfl, rfl, rfl, rfl, rfl, rfl⟩]
  · rw [naive_bayes_recompute, if_neg (by simpa using hg)]
    ext : 1
    · rfl
    · rfl
    · show (naive_bayes_mk procs total ow).process_prob.map _ =
        (naive_bayes_mk procs total nw).process_prob
      simp only [naive_bayes_mk, List.map_map]
      apply List.map_congr_left
      intro p _
      simp only [Function.comp]
      ring
    · funext k
      exact nb_scale_build_table procs process_info.ip_as total _ ow.as_w nw.as_w h1 k
    · funext k
      exact nb_scale_build_table procs process_info.dst_port total _ ow.port_w nw.port_w h3 k
    · funext k
      exact nb_scale_build_table procs process_info.hostname_domains total _ ow.domain_w nw.domain_w h2 k
    · funext k
      exact nb_scale_build_table procs process_info.ip_ip total _ ow.ip_w nw.ip_w h4 k
    · funext k
      exact nb_scale_build_table procs process_info.hostname_sni total _ ow.sni_w nw.sni_w h5 k
    · funext k
      exact nb_scale_build_table procs process_info.user_agent total _ ow.ua_w nw.ua_w h6 k
    · rfl
    · rfl
    · rfl
    · rfl
    · rfl
    · rfl

/-- C7 witness: the theorem applied at an empty process list, total
count 5, old weights all 1 and a changed first weight. -/
theorem naive_bayes_recompute_equiv_witness :
    naive_bayes_recompute (naive_bayes_mk [] 5 ⟨1, 1, 1, 1, 1, 1⟩) ⟨2, 1, 1, 1, 1, 1⟩ =
      naive_bayes_mk [] 5 ⟨2, 1, 1, 1, 1, 1⟩ :=
  naive_bayes_recompute_equiv [] 5 ⟨1, 1, 1, 1, 1, 1⟩ ⟨2, 1, 1, 1, 1, 1⟩
    one_ne_zero one_ne_zero one_ne_zero one_ne_zero one_ne_zero one_ne_zero

/-- C5 (amended): after classification of a TLS fingerprint, the
`encrypted_channel` attribute is set — with the malware probability as
its value — whenever the returned result's top-ranked process is
labelled malware (`result.max_mal`); the code tests `result.max_mal`,
not whether the malware probability is nonzero. -/
theorem enc_channel_amended (c : classifier_m) (fp : fingerprint_m)
    (dc : destination_context) (r0 : analysis_result)
    (hnull : fp.is_null = false) (htype : fp.typ ∈ c.fp_types)
    (htls : fp.typ = .tls)
    (hmal : (classifier_perform_analysis c fp.str dc.sn_str dc.dst_ip_str
        dc.dst_port dc.ua_str).max_mal = true) :
    (analyze_fp_and_dc c fp dc r0).attr.tags c.common.enc_channel_idx = true ∧
    (analyze_fp_and_dc c fp dc r0).attr.prob c.common.enc_channel_idx =
      (classifier_perform_analysis c fp.str dc.sn_str dc.dst_ip_str
        dc.dst_port dc.ua_str).malware_prob := by
  rw [analyze_fp_and_dc, if_neg (by simp [hnull]), if_neg (by simpa using htype),
    if_pos ⟨hmal, htls⟩]
  simp [attr_set_attr, Function.update_same]

theorem argmax2_pair (x : ℝ) : argmax2 [x, x] = (0, 1) := by
  simp [argmax2, List.enum, List.enumFrom, argmax2_loop, lt_self_iff_false]

theorem fdC5_eval :
    (fd_perform_analysis fdC5 cmC5 0 "example.com" "1.2.3.4" 443 none .labeled).max_mal
      = false ∧
    (fd_perform_analysis fdC5 cmC5 0 "example.com" "1.2.3.4" 443 none
      .labeled).malware_prob = 1 / 2 ∧
    (fd_perform_analysis fdC5 cmC5 0 "example.com" "1.2.3.4" 443 none
      .labeled).attr.tags 1 = false := by
  obtain ⟨s, hs⟩ : ∃ s : ℝ, nb_classify fdC5.nb 0 443
      (get_tld_domain_name "example.com") "example.com" "1.2.3.4" none = [s, s] :=
    ⟨((-Real.log 2) ⊔ Real.log 0.1) + Real.log (0.1 / 2) * (1 + 1 + 1 + 1 + 1 + 1),
     by simp [nb_classify, nb_apply_updates, fdC5, fingerprint_data_mk,
       naive_bayes_mk, nb_build_table, p0C5, p1C5, List.enum, List.enumFrom]⟩
  simp only [fd_perform_analysis, hs, argmax2_pair]
  simp [fdC5, fingerprint_data_mk, p0C5, p1C5, cmC5, List.getD, sub_self,
    Real.exp_zero, naive_bayes_mk]
  norm_num

/-- C5, counterexample: a TLS fingerprint entry with two processes of
equal counts, the top-ranked one benign and the other malware, yields a
malware probability of 1/2 — nonzero — while the returned result does
not carry the `encrypted_channel` attribute, because
`analyze_fingerprint_and_destination_context` gates the attribute on
`result.max_mal` (the top process's malware flag). -/
theorem enc_channel_cex :
    (analyze_fp_and_dc cC5 fpC5 dcC5 (analysis_result_of_status .unanalyzed)).malware_prob
      ≠ 0 ∧
    (analyze_fp_and_dc cC5 fpC5 dcC5
      (analysis_result_of_status .unanalyzed)).attr.tags cC5.common.enc_channel_idx
      = false := by
  have hperf : classifier_perform_analysis cC5 fpC5.str dcC5.sn_str dcC5.dst_ip_str
      dcC5.dst_port dcC5.ua_str =
      fd_perform_analysis fdC5 cmC5 0 "example.com" "1.2.3.4" 443 none .labeled := by
    simp [classifier_perform_analysis, cC5, fpC5, dcC5]
  have key := fdC5_eval
  rw [analyze_fp_and_dc, if_neg (by simp [fpC5]), if_neg (by simp [fpC5, cC5])]
  rw [if_neg (by rw [hperf]; simp [key.1])]
  rw [hperf]
  exact ⟨by rw [key.2.1]; norm_num, by simpa [cC5, cmC5] using key.2.2⟩

theorem argmax2_single (x : ℝ) : argmax2 [x] = (0, 0) := by
  simp [argmax2, List.enum, List.enumFrom, argmax2_loop]

/-- C5 witness: the amended theorem applied to a TLS fingerprint whose
single process is labelled malware: the `encrypted_channel` attribute
comes back set, with the malware probability as its value. -/
theorem enc_channel_amended_witness :
    (analyze_fp_and_dc cW fpW dcC5 (analysis_result_of_status .unanalyzed)).attr.tags
      cW.common.enc_channel_idx = true ∧
    (analyze_fp_and_dc cW fpW dcC5
      (analysis_result_of_status .unanalyzed)).attr.prob cW.common.enc_channel_idx =
      (classifier_perform_analysis cW fpW.str dcC5.sn_str dcC5.dst_ip_str
        dcC5.dst_port dcC5.ua_str).malware_prob :=
  enc_channel_amended cW fpW dcC5 (analysis_result_of_status .unanalyzed)
    rfl (by simp [cW, fpW]) rfl
    (by
      have hperf : classifier_perform_analysis cW fpW.str dcC5.sn_str dcC5.dst_ip_str
          dcC5.dst_port dcC5.ua_str =
          fd_perform_analysis fdW cmC5 0 "example.com" "1.2.3.4" 443 none .labeled := by
        simp [classifier_perform_analysis, cW, fpW, dcC5]
      rw [hperf]
      obtain ⟨s, hs⟩ : ∃ s : ℝ, nb_classify fdW.nb 0 443
          (get_tld_domain_name "example.com") "example.com" "1.2.3.4" none = [s] :=
        ⟨(0 ⊔ Real.log 0.1) + Real.log 0.1 * (1 + 1 + 1 + 1 + 1 + 1),
         by simp [nb_classify, nb_apply_updates, fdW, fingerprint_data_mk,
           naive_bayes_mk, nb_build_table, p0W, List.enum, List.enumFrom]⟩
      simp only [fd_perform_analysis, hs, argmax2_single]
      simp [fdW, fingerprint_data_mk, p0W, List.getD])

theorem takeWhile_all_append (p : Nat → Bool) (l l2 : List Nat)
    (h : ∀ b ∈ l, p b = true) :
    (l ++ l2).takeWhile p = l ++ l2.takeWhile p := by
  induction l with
  | nil => simp
  | cons b rest ih =>
      have hb := h b (List.mem_cons_self b rest)
      have ih2 := ih (fun x hx => h x (List.mem_cons_of_mem b hx))
      simp [List.takeWhile_cons, hb, ih2]

theorem dropWhile_all_append (p : Nat → Bool) (l l2 : List Nat)
    (h : ∀ b ∈ l, p b = true) :
    (l ++ l2).dropWhile p = l2.dropWhile p := by
  induction l with
  | nil => simp
  | cons b rest ih =>
      have hb := h b (List.mem_cons_self b rest)
      have ih2 := ih (fun x hx => h x (List.mem_cons_of_mem b hx))
      simp [List.dropWhile_cons, hb, ih2]

theorem lws_skip_list_32 (l : List Nat) : lws_skip_list (32 :: l) = lws_skip_list l := by
  simp [lws_skip_list]

theorem parse_one_header (n v rest : List Nat) (hwf : wf_header (n, v)) :
    httpheader_parse (some (n ++ [58, 32] ++ v ++ [13, 10] ++ rest)) [13, 10] =
      (⟨n, v, true⟩, some rest) := by
  obtain ⟨hne, hc, h13, h10, v13, v10, vws⟩ := hwf
  have hnp : ∀ b ∈ n, (fun b => !decide (b = 58)) b = true := by
    intro b hb
    simp only [Bool.not_eq_true', decide_eq_false_iff_not]
    intro he
    exact hc (he ▸ hb)
  have hvp : ∀ b ∈ v, (fun b => !decide (b = 13) && !decide (b = 10)) b = true := by
    intro b hb
    simp only [Bool.and_eq_true, Bool.not_eq_true', decide_eq_false_iff_not]
    exact ⟨fun he => v13 (he ▸ hb), fun he => v10 (he ▸ hb)⟩
  have hname_take : (n ++ 58 :: 32 :: (v ++ 13 :: 10 :: rest)).takeWhile
      (fun b => !decide (b = 58)) = n := by
    rw [show n ++ 58 :: 32 :: (v ++ 13 :: 10 :: rest) =
      n ++ ([58] ++ (32 :: (v ++ 13 :: 10 :: rest))) by simp]
    rw [takeWhile_all_append _ n _ hnp]
    simp
  have hname_drop : (n ++ 58 :: 32 :: (v ++ 13 :: 10 :: rest)).dropWhile
      (fun b => !decide (b = 58)) = 58 :: 32 :: (v ++ 13 :: 10 :: rest) := by
    rw [show n ++ 58 :: 32 :: (v ++ 13 :: 10 :: rest) =
      n ++ ([58] ++ (32 :: (v ++ 13 :: 10 :: rest))) by simp]
    rw [dropWhile_all_append _ n _ hnp]
    simp
  have hlws : lws_skip_list (v ++ 13 :: 10 :: rest) = v ++ 13 :: 10 :: rest := by
    match hv : v with
    | [] => simp [lws_skip_list]
    | b :: v2 =>
        have hb := vws b (by simp [hv])
        simp only [List.cons_append, lws_skip_list]
        rw [if_neg (by omega)]
        simp
  have hval_take : (v ++ 13 :: 10 :: rest).takeWhile
      (fun b => !decide (b = 13) && !decide (b = 10)) = v := by
    rw [show v ++ 13 :: 10 :: rest = v ++ ([13] ++ (10 :: rest)) by simp]
    rw [takeWhile_all_append _ v _ hvp]
    simp
  have hval_drop : (v ++ 13 :: 10 :: rest).dropWhile
      (fun b => !decide (b = 13) && !decide (b = 10)) = 13 :: 10 :: rest := by
    rw [show v ++ 13 :: 10 :: rest = v ++ ([13] ++ (10 :: rest)) by simp]
    rw [dropWhile_all_append _ v _ hvp]
    simp
  simp [httpheader_parse, parse_up_to_delim, parse_up_to_crlf, hname_take,
    hname_drop, literal_colon, lws_skip, lws_skip_list_32, hlws, hval_take,
    hval_drop, delimiter_parse, datum_bytes, List.isPrefixOf]

theorem render_headers_cons (nv : List Nat × List Nat)
    (hs : List (List Nat × List Nat)) :
    render_headers (nv :: hs) =
      nv.1 ++ [58, 32] ++ nv.2 ++ [13, 10] ++ render_headers hs := by
  simp [render_headers]

theorem new_http_headers_parse_loop_render (names : List String)
    (hs : List (List Nat × List Nat)) :
    ∀ (st : http_headers_state) (fuel : Nat),
      (render_headers hs).length < fuel →
      (∀ nv ∈ hs, wf_header nv) →
      new_http_headers_parse_loop names [13, 10] fuel (some (render_headers hs)) st =
        headers_fold names hs st := by
  induction hs with
  | nil =>
      intro st fuel hfuel _
      match fuel with
      | 0 => simp [render_headers] at hfuel
      | fuel + 1 =>
          simp [new_http_headers_parse_loop, render_headers, datum_is_not_empty,
            delimiter_parse, List.isPrefixOf, headers_fold]
  | cons nv hs ih =>
      intro st fuel hfuel hwf
      obtain ⟨hne, hc, h13, h10, v13, v10, vws⟩ := hwf nv (List.mem_cons_self nv hs)
      obtain ⟨b0, ntail, hn⟩ : ∃ b0 ntail, nv.1 = b0 :: ntail := by
        match hnv : nv.1 with
        | [] => exact absurd hnv hne
        | b0 :: ntail => exact ⟨b0, ntail, rfl⟩
      have hb13 : b0 ≠ 13 := fun he => h13 (by rw [hn, he]; exact List.mem_cons_self _ _)
      have hb10 : b0 ≠ 10 := fun he => h10 (by rw [hn, he]; exact List.mem_cons_self _ _)
      match fuel with
      | 0 => simp [render_headers] at hfuel
      | fuel + 1 =>
          have hrender := render_headers_cons nv hs
          have hshape : render_headers (nv :: hs) =
              b0 :: (ntail ++ [58, 32] ++ nv.2 ++ [13, 10] ++ render_headers hs) := by
            rw [hrender, hn]
            simp
          have hone : httpheader_parse (some (render_headers (nv :: hs))) [13, 10] =
              (⟨nv.1, nv.2, true⟩, some (render_headers hs)) := by
            rw [hrender]
            exact parse_one_header nv.1 nv.2 (render_headers hs)
              ⟨hne, hc, h13, h10, v13, v10, vws⟩
          have hb13s : (13 : Nat) ≠ b0 := Ne.symm hb13
          have hb10s : (10 : Nat) ≠ b0 := Ne.symm hb10
          have hdelim : delimiter_parse (some (render_headers (nv :: hs))) [13, 10] =
              (none, some (render_headers (nv :: hs))) := by
            rw [hshape]
            simp [delimiter_parse, List.isPrefixOf, hb13, hb10, hb13s, hb10s]
          have hrec := ih (headers_fold_step names st nv) fuel
            (by
              rw [hrender] at hfuel
              simp at hfuel
              omega)
            (fun x hx => hwf x (List.mem_cons_of_mem nv hx))
          rw [new_http_headers_parse_loop]
          rw [show datum_is_not_empty (some (render_headers (nv :: hs))) = true by
            rw [hshape]; rfl]
          simp only [hdelim, hone, if_true]
          rw [show datum_is_not_empty (none : Datum) = false from rfl]
          simp only [Bool.false_eq_true, if_false]
          rw [if_neg (by simp)]
          show new_http_headers_parse_loop names [13, 10] fuel
              (some (render_headers hs)) (headers_fold_step names st nv) =
            headers_fold names (nv :: hs) st
          rw [hrec]
          rfl

theorem str_bytes_inj {s t : String} (h : str_bytes s = str_bytes t) : s = t := by
  have hinj : Function.Injective Char.toNat := by
    intro a b hab
    have := congrArg Char.ofNat hab
    rwa [Char.ofNat_toNat, Char.ofNat_toNat] at this
  have hd : s.data = t.data := List.map_injective_iff.mpr hinj h
  exact String.ext hd

theorem ph_lookup_indexOf (names : List String) (name : String) (h : name ∈ names) :
    ph_lookup names (str_bytes name) = some (names.indexOf name) := by
  induction names with
  | nil => cases h
  | cons s rest ih =>
      by_cases hs : s = name
      · subst hs
        simp [ph_lookup, List.indexOf_cons_self]
      · have hbytes : str_bytes s ≠ str_bytes name := fun he => hs (str_bytes_inj he)
        rcases List.mem_cons.mp h with h1 | h2
        · exact absurd h1.symm hs
        · rw [ph_lookup, if_neg hbytes, ih h2]
          rw [List.indexOf_cons_ne _ (by simpa using hs)]
          rfl

theorem ph_lookup_some_get (names : List String) (nb : List Nat) (k : Nat)
    (h : ph_lookup names nb = some k) :
    ∃ s, names.get? k = some s ∧ str_bytes s = nb := by
  induction names generalizing k with
  | nil => simp [ph_lookup] at h
  | cons s rest ih =>
      rw [ph_lookup] at h
      by_cases hs : str_bytes s = nb
      · rw [if_pos hs] at h
        obtain rfl : k = 0 := by simpa using h.symm
        exact ⟨s, rfl, hs⟩
      · rw [if_neg hs] at h
        match hrec : ph_lookup rest nb with
        | none => rw [hrec] at h; simp at h
        | some k2 =>
            rw [hrec] at h
            obtain rfl : k = k2 + 1 := by simpa using h.symm
            obtain ⟨t, ht1, ht2⟩ := ih k2 hrec
            exact ⟨t, by simpa using ht1, ht2⟩

theorem getD_set_ne (l : List Nat) (i k v d : Nat) (h : i ≠ k) :
    (l.set i v).getD k d = l.getD k d := by
  simp only [List.getD_eq_getElem?_getD]
  rw [List.getElem?_set_ne h]

theorem getD_set_self (l : List Nat) (i v d : Nat) (h : i < l.length) :
    (l.set i v).getD i d = v := by
  simp only [List.getD_eq_getElem?_getD]
  rw [List.getElem?_set_self h]
  rfl

theorem headers_fold_headers (names : List String) (hs : List (List Nat × List Nat)) :
    ∀ st : http_headers_state,
      (headers_fold names hs st).headers =
        st.headers ++ hs.map (fun nv => ⟨nv.1, nv.2, true⟩) := by
  induction hs with
  | nil => intro st; simp [headers_fold]
  | cons nv hs ih =>
      intro st
      rw [show headers_fold names (nv :: hs) st =
        headers_fold names hs (headers_fold_step names st nv) from rfl]
      rw [ih]
      have hstep : (headers_fold_step names st nv).headers =
          st.headers ++ [⟨nv.1, nv.2, true⟩] := by
        unfold headers_fold_step
        match ph_lookup names nv.1 with
        | none => rfl
        | some idx =>
            simp only
            split_ifs <;> rfl
      rw [hstep]
      simp

theorem headers_fold_indices_length (names : List String)
    (hs : List (List Nat × List Nat)) :
    ∀ st : http_headers_state,
      (headers_fold names hs st).hdr_indices.length = st.hdr_indices.length := by
  induction hs with
  | nil => intro st; rfl
  | cons nv hs ih =>
      intro st
      rw [show headers_fold names (nv :: hs) st =
        headers_fold names hs (headers_fold_step names st nv) from rfl]
      rw [ih]
      unfold headers_fold_step
      match ph_lookup names nv.1 with
      | none => rfl
      | some idx =>
          simp only
          split_ifs <;> simp

theorem headers_fold_index_frozen (names : List String)
    (hs : List (List Nat × List Nat)) (k : Nat) :
    ∀ st : http_headers_state, st.hdr_indices.getD k 255 ≠ 255 →
      (headers_fold names hs st).hdr_indices.getD k 255 =
        st.hdr_indices.getD k 255 := by
  induction hs with
  | nil => intro st _; rfl
  | cons nv hs ih =>
      intro st hne
      rw [show headers_fold names (nv :: hs) st =
        headers_fold names hs (headers_fold_step names st nv) from rfl]
      have hstep : (headers_fold_step names st nv).hdr_indices.getD k 255 =
          st.hdr_indices.getD k 255 := by
        unfold headers_fold_step
        match ph_lookup names nv.1 with
        | none => rfl
        | some idx =>
            simp only
            by_cases hcell : st.hdr_indices.getD idx 255 = 255
            · rw [if_pos hcell]
              by_cases hik : idx = k
              · subst hik
                exact absurd hcell hne
              · exact getD_set_ne _ _ _ _ _ hik
            · rw [if_neg hcell]
      rw [ih _ (by rw [hstep]; exact hne), hstep]

theorem headers_fold_index_notfound (names : List String) (nb : List Nat) (k : Nat)
    (hs : List (List Nat × List Nat)) :
    ∀ st : http_headers_state,
      st.hdr_indices.getD k 255 = 255 →
      (∀ nv ∈ hs, nv.1 ≠ nb → ph_lookup names nv.1 ≠ some k) →
      find_first_hdr hs nb = none →
      (headers_fold names hs st).hdr_indices.getD k 255 = 255 := by
  induction hs with
  | nil => intro st hcell _ _; exact hcell
  | cons nv hs ih =>
      intro st hcell huniq hfind
      rw [find_first_hdr] at hfind
      by_cases hnv : nv.1 = nb
      · rw [if_pos hnv] at hfind
        exact absurd hfind (by simp)
      · rw [if_neg hnv] at hfind
        have hfind2 : find_first_hdr hs nb = none := by
          match hrec : find_first_hdr hs nb with
          | none => rfl
          | some j => rw [hrec] at hfind; simp at hfind
        have hph := huniq nv (List.mem_cons_self nv hs) hnv
        have hstep : (headers_fold_step names st nv).hdr_indices.getD k 255 = 255 := by
          unfold headers_fold_step
          match hl : ph_lookup names nv.1 with
          | none => exact hcell
          | some idx =>
              have hik : idx ≠ k := fun he => hph (he ▸ hl)
              simp only
              split_ifs
              · exact (getD_set_ne _ _ _ _ _ hik).trans hcell
              · exact hcell
        rw [show headers_fold names (nv :: hs) st =
          headers_fold names hs (headers_fold_step names st nv) from rfl]
        exact ih _ hstep (fun x hx => huniq x (List.mem_cons_of_mem nv hx)) hfind2

theorem headers_fold_step_length (names : List String) (st : http_headers_state)
    (nv : List Nat × List Nat) :
    (headers_fold_step names st nv).headers.length = st.headers.length + 1 ∧
    (headers_fold_step names st nv).hdr_indices.length = st.hdr_indices.length := by
  unfold headers_fold_step
  match ph_lookup names nv.1 with
  | none => simp
  | some idx =>
      simp only
      split_ifs <;> simp

theorem headers_fold_index_found (names : List String) (nb : List Nat) (k : Nat)
    (hs : List (List Nat × List Nat)) :
    ∀ (st : http_headers_state) (j : Nat),
      st.hdr_indices.getD k 255 = 255 →
      k < st.hdr_indices.length →
      (∀ nv ∈ hs, nv.1 ≠ nb → ph_lookup names nv.1 ≠ some k) →
      ph_lookup names nb = some k →
      find_first_hdr hs nb = some j →
      st.headers.length + j < 255 →
      (headers_fold names hs st).hdr_indices.getD k 255 = st.headers.length + j := by
  induction hs with
  | nil => intro st j _ _ _ _ hfind _; simp [find_first_hdr] at hfind
  | cons nv hs ih =>
      intro st j hcell hk huniq hph hfind hlen
      rw [show headers_fold names (nv :: hs) st =
        headers_fold names hs (headers_fold_step names st nv) from rfl]
      rw [find_first_hdr] at hfind
      by_cases hnv : nv.1 = nb
      · rw [if_pos hnv] at hfind
        obtain rfl : j = 0 := by simpa using hfind.symm
        have hw : (headers_fold_step names st nv).hdr_indices.getD k 255 =
            st.headers.length := by
          unfold headers_fold_step
          rw [hnv, hph]
          simp only [if_pos hcell]
          have := getD_set_self st.hdr_indices k (st.headers.length % 256) 255 hk
          rw [this]
          omega
        rw [headers_fold_index_frozen names hs k _ (by rw [hw]; omega), hw]
        omega
      · rw [if_neg hnv] at hfind
        obtain ⟨j2, hj2, rfl⟩ : ∃ j2, find_first_hdr hs nb = some j2 ∧ j = j2 + 1 := by
          match hrec : find_first_hdr hs nb with
          | none => rw [hrec] at hfind; simp at hfind
          | some j2 =>
              rw [hrec] at hfind
              exact ⟨j2, rfl, by simpa using hfind.symm⟩
        have hph2 := huniq nv (List.mem_cons_self nv hs) hnv
        have hstep_cell : (headers_fold_step names st nv).hdr_indices.getD k 255 = 255 := by
          unfold headers_fold_step
          match hl : ph_lookup names nv.1 with
          | none => exact hcell
          | some idx =>
              have hik : idx ≠ k := fun he => hph2 (he ▸ hl)
              simp only
              split_ifs
              · exact (getD_set_ne _ _ _ _ _ hik).trans hcell
              · exact hcell
        have hlens := headers_fold_step_length names st nv
        have := ih (headers_fold_step names st nv) j2 hstep_cell
          (by rw [hlens.2]; exact hk)
          (fun x hx => huniq x (List.mem_cons_of_mem nv hx)) hph hj2
          (by rw [hlens.1]; omega)
        rw [this, hlens.1]
        omega

theorem find_first_filter (nb : List Nat) (q : (List Nat × List Nat) → Bool)
    (hq : ∀ nv, nv.1 = nb → q nv = true) (hs : List (List Nat × List Nat)) :
    ∀ j, find_first_hdr hs nb = some j →
      ∃ j2, find_first_hdr (hs.filter q) nb = some j2 ∧
        (hs.filter q).get? j2 = hs.get? j ∧ j2 ≤ j := by
  induction hs with
  | nil => intro j hj; simp [find_first_hdr] at hj
  | cons nv hs ih =>
      intro j hj
      rw [find_first_hdr] at hj
      by_cases hnv : nv.1 = nb
      · rw [if_pos hnv] at hj
        obtain rfl : j = 0 := by simpa using hj.symm
        refine ⟨0, ?_, by simp [List.filter_cons_of_pos (hq nv hnv)], Nat.le_refl 0⟩
        rw [List.filter_cons_of_pos (hq nv hnv), find_first_hdr, if_pos hnv]
      · rw [if_neg hnv] at hj
        obtain ⟨j1, hj1, rfl⟩ : ∃ j1, find_first_hdr hs nb = some j1 ∧ j = j1 + 1 := by
          match hrec : find_first_hdr hs nb with
          | none => rw [hrec] at hj; simp at hj
          | some j1 =>
              rw [hrec] at hj
              exact ⟨j1, rfl, by simpa using hj.symm⟩
        obtain ⟨j2, hq1, hq2, hq3⟩ := ih j1 hj1
        by_cases hkeep : q nv = true
        · refine ⟨j2 + 1, ?_, ?_, by omega⟩
          · rw [List.filter_cons_of_pos hkeep, find_first_hdr, if_neg hnv, hq1]
            rfl
          · rw [List.filter_cons_of_pos hkeep]
            simpa using hq2
        · rw [List.filter_cons_of_neg (by simpa using hkeep)]
          exact ⟨j2, hq1, by simpa using hq2, by omega⟩

theorem get_header_render (names : List String) (hs : List (List Nat × List Nat))
    (name : String) (j : Nat) (v : List Nat)
    (hmem : name ∈ names)
    (hwf : ∀ nv ∈ hs, wf_header nv)
    (hfirst : find_first_hdr hs (str_bytes name) = some j)
    (hval : (hs.get? j).map Prod.snd = some v)
    (hj : j < 255) :
    get_header_m names (new_http_headers_parse names (render_headers hs) [13, 10]) name
      = some v := by
  have hph : ph_lookup names (str_bytes name) = some (names.indexOf name) :=
    ph_lookup_indexOf names name hmem
  have hk : names.indexOf name < names.length := List.indexOf_lt_length.mpr hmem
  have hbridge : new_http_headers_parse names (render_headers hs) [13, 10] =
      headers_fold names hs ⟨[], List.replicate names.length 255⟩ := by
    unfold new_http_headers_parse
    exact new_http_headers_parse_loop_render names hs _ _ (by omega) hwf
  have huniq : ∀ nv ∈ hs, nv.1 ≠ str_bytes name →
      ph_lookup names nv.1 ≠ some (names.indexOf name) := by
    intro nv _ hne hcon
    obtain ⟨s, hg1, hb1⟩ := ph_lookup_some_get names nv.1 _ hcon
    obtain ⟨s2, hg2, hb2⟩ := ph_lookup_some_get names (str_bytes name) _ hph
    rw [hg1] at hg2
    have : s = s2 := by injection hg2
    exact hne (by rw [← hb1, this, hb2])
  have hcell : (⟨[], List.replicate names.length 255⟩ :
      http_headers_state).hdr_indices.getD (names.indexOf name) 255 = 255 := by
    simp only
    rw [List.getD_eq_getElem?_getD, List.getElem?_replicate]
    simp [hk]
  have hidx := headers_fold_index_found names (str_bytes name) (names.indexOf name)
    hs ⟨[], List.replicate names.length 255⟩ j hcell (by simpa using hk) huniq hph
    hfirst (by simpa using hj)
  have hhdrs := headers_fold_headers names hs ⟨[], List.replicate names.length 255⟩
  obtain ⟨nv0, hnv0⟩ : ∃ nv0, hs.get? j = some nv0 := by
    match hg : hs.get? j with
    | none => rw [hg] at hval; simp at hval
    | some nv0 => exact ⟨nv0, rfl⟩
  have hv0 : nv0.2 = v := by
    rw [hnv0] at hval
    simpa using hval
  rw [hbridge]
  unfold get_header_m
  simp only [hidx]
  rw [if_pos (by simp; omega)]
  rw [hhdrs]
  simp only [List.length_nil, List.nil_append, Nat.zero_add,
    List.get?_eq_getElem?, List.getElem?_map]
  rw [show hs[j]? = some nv0 from by rw [← List.get?_eq_getElem?]; exact hnv0]
  simp [hv0]

/-- C10 (amended): for a message whose headers all have colon-free
names and CR/LF-free names and values, if the first header named `name`
(a reported name) is at position `j < 255`, then `get_header` returns
that first occurrence's value; and the result is unchanged when the
non-reported headers are removed from the message — i.e. only the
reported headers (those whose lowercased name appears in the report
list) influence `get_header`.  The original claim's "latest value" and
"any of the recognized header names regardless of position" both fail:
the sentinel cell is written only when it still holds 255, so the FIRST
occurrence wins, and a header preceded by 255 parsed headers is never
retrievable (see the overflow counterexample). -/
theorem http_get_header_first_occurrence (names : List String)
    (hs : List (List Nat × List Nat)) (name : String) (j : Nat) (v : List Nat)
    (hmem : name ∈ names)
    (hwf : ∀ nv ∈ hs, wf_header nv)
    (hfirst : find_first_hdr hs (str_bytes name) = some j)
    (hval : (hs.get? j).map Prod.snd = some v)
    (hj : j < 255) :
    get_header_m names (new_http_headers_parse names (render_headers hs) [13, 10]) name
      = some v ∧
    get_header_m names (new_http_headers_parse names
      (render_headers (hs.filter (fun nv => (ph_lookup names nv.1).isSome)))
      [13, 10]) name = some v := by
  refine ⟨get_header_render names hs name j v hmem hwf hfirst hval hj, ?_⟩
  have hq : ∀ nv : List Nat × List Nat, nv.1 = str_bytes name →
      (ph_lookup names nv.1).isSome = true := by
    intro nv he
    rw [he, ph_lookup_indexOf names name hmem]
    rfl
  obtain ⟨j2, hj2a, hj2b, hj2c⟩ :=
    find_first_filter (str_bytes name) _ hq hs j hfirst
  exact get_header_render names _ name j2 v hmem
    (fun nv hnv => hwf nv (List.mem_of_mem_filter hnv)) hj2a
    (by rw [hj2b]; exact hval) (by omega)

theorem http_get_header_first_occurrence_witness :
    get_header_m req_hdrs (new_http_headers_parse req_hdrs
      (render_headers [([104, 111, 115, 116], [120]), ([97], [98]),
        ([104, 111, 115, 116], [121])]) [13, 10]) "host" = some [120] ∧
    get_header_m req_hdrs (new_http_headers_parse req_hdrs
      (render_headers (([([104, 111, 115, 116], [120]), ([97], [98]),
        ([104, 111, 115, 116], [121])]).filter
          (fun nv => (ph_lookup req_hdrs nv.1).isSome)))
      [13, 10]) "host" = some [120] :=
  http_get_header_first_occurrence req_hdrs
    [([104, 111, 115, 116], [120]), ([97], [98]), ([104, 111, 115, 116], [121])]
    "host" 0 [120] (by decide)
    (by
      intro nv hnv
      fin_cases hnv <;> constructor <;> decide)
    (by decide) (by decide) (by decide)

set_option maxRecDepth 100000 in
/-- C10 (counterexample): `hdr_indices` stores the header count in a
`uint8_t` initialized to the sentinel `255`.  A `host` header parsed as
the 256th header of the message stores index `255 % 256 = 255`, which
`get_header` cannot distinguish from "never seen": the same `host: x`
header that is returned when it stands alone is lost behind 255
unreported filler headers, refuting "regardless of ... position in the
header list". -/
theorem http_get_header_overflow_cex :
    get_header_m req_hdrs (new_http_headers_parse req_hdrs
      (render_headers [([104, 111, 115, 116], [120])]) [13, 10]) "host"
      = some [120] ∧
    get_header_m req_hdrs (new_http_headers_parse req_hdrs
      (render_headers (List.replicate 255 ([97], [98]) ++
        [([104, 111, 115, 116], [120])])) [13, 10]) "host" = none := by
  constructor
  · decide
  · decide

theorem list_getD_set_ne {α : Type} (l : List α) (i k : Nat) (v d : α) (h : i ≠ k) :
    (l.set i v).getD k d = l.getD k d := by
  simp [List.getD_eq_getElem?_getD, List.getElem?_set_ne h]

theorem list_getD_set_self {α : Type} (l : List α) (i : Nat) (v d : α) (h : i < l.length) :
    (l.set i v).getD i d = v := by
  simp [List.getD_eq_getElem?_getD, List.getElem?_set_self h]

theorem list_getD_mem {α : Type} (l : List α) (i : Nat) (d : α) (h : i < l.length) :
    l.getD i d ∈ l := by
  rw [List.getD_eq_getElem l d h]
  exact List.getElem_mem h

theorem sorted_head_le (l : List Int) (hs : l.Sorted (· ≤ ·)) (x : Int) (hx : x ∈ l)
    (h2 : Int) (hh : l.head? = some h2) : h2 ≤ x := by
  cases l with
  | nil => cases hx
  | cons a l =>
    injection hh with hh
    subst hh
    rcases List.mem_cons.1 hx with rfl | hx
    · exact le_refl _
    · exact List.rel_of_sorted_cons hs _ hx

theorem heads_ok_head (qs : List (List Int)) (t : Int) (h : heads_ok qs t = true)
    (i : Nat) (hi : i < qs.length) (h2 : Int) (hh : (qs.getD i []).head? = some h2) :
    t ≤ h2 := by
  simp only [heads_ok, List.all_eq_true] at h
  have h3 := h _ (list_getD_mem qs i [] hi)
  rw [hh] at h3
  simpa using h3

theorem all_nonempty_getD (qs : List (List Int)) (h : all_nonempty qs = true)
    (i : Nat) (hi : i < qs.length) : qs.getD i [] ≠ [] := by
  simp [all_nonempty, List.all_eq_true] at h
  exact h _ (list_getD_mem qs i [] hi)

theorem writer_step_inv_A (s s2 : writer_state) (e : writer_ev)
    (h : writer_step s e = some s2) (hI : inv_A s) : inv_A s2 := by
  obtain ⟨⟨hlen, hwf⟩, hB, hP⟩ := hI
  cases e with
  | push q t now =>
    simp only [writer_step] at h
    split_ifs at h with hc
    · obtain ⟨hcl, hql, hlast⟩ := hc
      injection h with h
      subst h
      have hqlt : q < s.lastTs.length := by rw [hlen]; exact hql
      have hxle : ∀ x ∈ s.queues.getD q [], x ≤ t := by
        intro x hx
        obtain ⟨l, hl, hxl⟩ := (hwf q hql).2 x hx
        rw [hl] at hlast
        exact le_trans hxl hlast
      refine ⟨⟨?_, ?_⟩, ?_, ?_⟩
      · simp only [List.length_set]; exact hlen
      · intro i hi
        simp only [List.length_set] at hi
        by_cases hiq : i = q
        · subst hiq
          rw [list_getD_set_self _ _ _ _ hql, list_getD_set_self _ _ _ _ hqlt]
          constructor
          · refine List.pairwise_append.2 ⟨(hwf i hql).1, List.sorted_singleton t, ?_⟩
            intro a ha b hb
            rw [List.mem_singleton] at hb
            subst hb
            exact hxle a ha
          · intro x hx
            rcases List.mem_append.1 hx with hx | hx
            · exact ⟨t, rfl, hxle x hx⟩
            · rw [List.mem_singleton] at hx
              rw [hx]
              exact ⟨t, rfl, le_refl t⟩
        · rw [list_getD_set_ne _ _ _ _ _ (Ne.symm hiq), list_getD_set_ne _ _ _ _ _ (Ne.symm hiq)]
          exact hwf i hi
      · intro y hy
        rcases hB y hy with hd1 | hd2
        · left
          intro i hi
          simp only [List.length_set] at hi
          by_cases hiq : i = q
          · subst hiq
            rw [list_getD_set_self _ _ _ _ hql, list_getD_set_self _ _ _ _ hqlt]
            obtain ⟨l, hl, hyl⟩ := (hd1 i hql).2
            have hyt : y.ts ≤ t := by
              rw [hl] at hlast
              exact le_trans hyl hlast
            constructor
            · intro x hx
              rcases List.mem_append.1 hx with hx | hx
              · exact (hd1 i hql).1 x hx
              · rw [List.mem_singleton] at hx
                rw [hx]
                exact hyt
            · exact ⟨t, rfl, hyt⟩
          · rw [list_getD_set_ne _ _ _ _ _ (Ne.symm hiq), list_getD_set_ne _ _ _ _ _ (Ne.symm hiq)]
            exact hd1 i hi
        · exact Or.inr hd2
      · exact hP
  | ipop q now =>
    rcases hq : s.queues.getD q [] with _ | ⟨t, rest⟩
    · simp only [writer_step, hq] at h
      exact Option.noConfusion h
    · simp only [writer_step, hq] at h
      split_ifs at h with hc
      · obtain ⟨hcl, hne, hho⟩ := hc
        injection h with h
        subst h
        have hql : q < s.queues.length := by
          by_contra hq2
          rw [List.getD_eq_default _ _ (le_of_not_lt hq2)] at hq
          exact List.noConfusion hq
        have hsorted : (t :: rest).Sorted (· ≤ ·) := by
          rw [← hq]; exact (hwf q hql).1
        have htmem : t ∈ s.queues.getD q [] := by rw [hq]; exact List.mem_cons_self t rest
        refine ⟨⟨?_, ?_⟩, ?_, ?_⟩
        · simp only [List.length_set]; exact hlen
        · intro i hi
          simp only [List.length_set] at hi
          by_cases hiq : i = q
          · subst hiq
            rw [list_getD_set_self _ _ _ _ hql]
            refine ⟨hsorted.of_cons, ?_⟩
            intro x hx
            exact (hwf i hql).2 x (by rw [hq]; exact List.mem_cons_of_mem t hx)
          · rw [list_getD_set_ne _ _ _ _ _ (Ne.symm hiq)]
            exact hwf i hi
        · intro y hy
          rcases List.mem_append.1 hy with hy | hy
          · rcases hB y hy with hd1 | hd2
            · left
              intro i hi
              simp only [List.length_set] at hi
              by_cases hiq : i = q
              · subst hiq
                rw [list_getD_set_self _ _ _ _ hql]
                refine ⟨?_, (hd1 i hql).2⟩
                intro x hx
                exact (hd1 i hql).1 x (by rw [hq]; exact List.mem_cons_of_mem t hx)
              · rw [list_getD_set_ne _ _ _ _ _ (Ne.symm hiq)]
                exact hd1 i hi
            · exact Or.inr hd2
          · rw [List.mem_singleton] at hy
            subst hy
            left
            intro i hi
            simp only [List.length_set] at hi
            by_cases hiq : i = q
            · subst hiq
              rw [list_getD_set_self _ _ _ _ hql]
              constructor
              · intro x hx
                exact List.rel_of_sorted_cons hsorted x hx
              · obtain ⟨l, hl, htl⟩ := (hwf i hql).2 t htmem
                exact ⟨l, hl, htl⟩
            · rw [list_getD_set_ne _ _ _ _ _ (Ne.symm hiq)]
              have hnei := all_nonempty_getD _ hne i hi
              obtain ⟨h0, l0, hql0⟩ := List.exists_cons_of_ne_nil hnei
              have hh0 : (s.queues.getD i []).head? = some h0 := by rw [hql0]; rfl
              have hth0 : t ≤ h0 := heads_ok_head _ _ hho i hi h0 hh0
              constructor
              · intro x hx
                exact le_trans hth0 (sorted_head_le _ (hwf i hi).1 x hx h0 hh0)
              · obtain ⟨l, hl, h0l⟩ := (hwf i hi).2 h0 (by rw [hql0]; exact List.mem_cons_self h0 l0)
                exact ⟨l, hl, le_trans hth0 h0l⟩
        · refine List.pairwise_append.2 ⟨hP, List.pairwise_singleton _ _, ?_⟩
          intro y hy w hw
          rw [List.mem_singleton] at hw
          subst hw
          intro hlt
          rcases hB y hy with hd1 | hd2
          · exact absurd hlt (not_lt.2 ((hd1 q hql).1 t htmem))
          · exact hd2
  | fpop q now =>
    rcases hq : s.queues.getD q [] with _ | ⟨t, rest⟩
    · simp only [writer_step, hq] at h
      exact Option.noConfusion h
    · simp only [writer_step, hq] at h
      split_ifs at h with hc
      · obtain ⟨hcl, hold, hho⟩ := hc
        injection h with h
        subst h
        have hql : q < s.queues.length := by
          by_contra hq2
          rw [List.getD_eq_default _ _ (le_of_not_lt hq2)] at hq
          exact List.noConfusion hq
        have hsorted : (t :: rest).Sorted (· ≤ ·) := by
          rw [← hq]; exact (hwf q hql).1
        have htmem : t ∈ s.queues.getD q [] := by rw [hq]; exact List.mem_cons_self t rest
        refine ⟨⟨?_, ?_⟩, ?_, ?_⟩
        · simp only [List.length_set]; exact hlen
        · intro i hi
          simp only [List.length_set] at hi
          by_cases hiq : i = q
          · subst hiq
            rw [list_getD_set_self _ _ _ _ hql]
            refine ⟨hsorted.of_cons, ?_⟩
            intro x hx
            exact (hwf i hql).2 x (by rw [hq]; exact List.mem_cons_of_mem t hx)
          · rw [list_getD_set_ne _ _ _ _ _ (Ne.symm hiq)]
            exact hwf i hi
        · intro y hy
          rcases List.mem_append.1 hy with hy | hy
          · rcases hB y hy with hd1 | hd2
            · left
              intro i hi
              simp only [List.length_set] at hi
              by_cases hiq : i = q
              · subst hiq
                rw [list_getD_set_self _ _ _ _ hql]
                refine ⟨?_, (hd1 i hql).2⟩
                intro x hx
                exact (hd1 i hql).1 x (by rw [hq]; exact List.mem_cons_of_mem t hx)
              · rw [list_getD_set_ne _ _ _ _ _ (Ne.symm hiq)]
                exact hd1 i hi
            · exact Or.inr hd2
          · rw [List.mem_singleton] at hy
            subst hy
            exact Or.inr ⟨rfl, hold⟩
        · refine List.pairwise_append.2 ⟨hP, List.pairwise_singleton _ _, ?_⟩
          intro y hy w hw
          rw [List.mem_singleton] at hw
          subst hw
          intro hlt
          rcases hB y hy with hd1 | hd2
          · exact absurd hlt (not_lt.2 ((hd1 q hql).1 t htmem))
          · exact hd2

theorem writer_step_wf (s s2 : writer_state) (e : writer_ev)
    (h : writer_step s e = some s2) (hW : state_wf s) : state_wf s2 := by
  obtain ⟨hlen, hwf⟩ := hW
  cases e with
  | push q t now =>
    simp only [writer_step] at h
    split_ifs at h with hc
    · obtain ⟨hcl, hql, hlast⟩ := hc
      injection h with h
      subst h
      have hqlt : q < s.lastTs.length := by rw [hlen]; exact hql
      have hxle : ∀ x ∈ s.queues.getD q [], x ≤ t := by
        intro x hx
        obtain ⟨l, hl, hxl⟩ := (hwf q hql).2 x hx
        rw [hl] at hlast
        exact le_trans hxl hlast
      refine ⟨by simp only [List.length_set]; exact hlen, ?_⟩
      intro i hi
      simp only [List.length_set] at hi
      by_cases hiq : i = q
      · subst hiq
        rw [list_getD_set_self _ _ _ _ hql, list_getD_set_self _ _ _ _ hqlt]
        constructor
        · refine List.pairwise_append.2 ⟨(hwf i hql).1, List.sorted_singleton t, ?_⟩
          intro a ha b hb
          rw [List.mem_singleton] at hb
          subst hb
          exact hxle a ha
        · intro x hx
          rcases List.mem_append.1 hx with hx | hx
          · exact ⟨t, rfl, hxle x hx⟩
          · rw [List.mem_singleton] at hx
            rw [hx]
            exact ⟨t, rfl, le_refl t⟩
      · rw [list_getD_set_ne _ _ _ _ _ (Ne.symm hiq), list_getD_set_ne _ _ _ _ _ (Ne.symm hiq)]
        exact hwf i hi
  | ipop q now =>
    rcases hq : s.queues.getD q [] with _ | ⟨t, rest⟩
    · simp only [writer_step, hq] at h
      exact Option.noConfusion h
    · simp only [writer_step, hq] at h
      split_ifs at h with hc
      injection h with h
      subst h
      have hql : q < s.queues.length := by
        by_contra hq2
        rw [List.getD_eq_default _ _ (le_of_not_lt hq2)] at hq
        exact List.noConfusion hq
      have hsorted : (t :: rest).Sorted (· ≤ ·) := by
        rw [← hq]; exact (hwf q hql).1
      refine ⟨by simp only [List.length_set]; exact hlen, ?_⟩
      intro i hi
      simp only [List.length_set] at hi
      by_cases hiq : i = q
      · subst hiq
        rw [list_getD_set_self _ _ _ _ hql]
        refine ⟨hsorted.of_cons, ?_⟩
        intro x hx
        exact (hwf i hql).2 x (by rw [hq]; exact List.mem_cons_of_mem t hx)
      · rw [list_getD_set_ne _ _ _ _ _ (Ne.symm hiq)]
        exact hwf i hi
  | fpop q now =>
    rcases hq : s.queues.getD q [] with _ | ⟨t, rest⟩
    · simp only [writer_step, hq] at h
      exact Option.noConfusion h
    · simp only [writer_step, hq] at h
      split_ifs at h with hc
      injection h with h
      subst h
      have hql : q < s.queues.length := by
        by_contra hq2
        rw [List.getD_eq_default _ _ (le_of_not_lt hq2)] at hq
        exact List.noConfusion hq
      have hsorted : (t :: rest).Sorted (· ≤ ·) := by
        rw [← hq]; exact (hwf q hql).1
      refine ⟨by simp only [List.length_set]; exact hlen, ?_⟩
      intro i hi
      simp only [List.length_set] at hi
      by_cases hiq : i = q
      · subst hiq
        rw [list_getD_set_self _ _ _ _ hql]
        refine ⟨hsorted.of_cons, ?_⟩
        intro x hx
        exact (hwf i hql).2 x (by rw [hq]; exact List.mem_cons_of_mem t hx)
      · rw [list_getD_set_ne _ _ _ _ _ (Ne.symm hiq)]
        exact hwf i hi

theorem writer_step_inv_B (s s2 : writer_state) (e : writer_ev)
    (h : writer_step s e = some s2) (ht : timely e) (hI : inv_B s) : inv_B s2 := by
  obtain ⟨hW, hBB, hP⟩ := hI
  obtain ⟨hlen, hwf⟩ := hW
  have hW2 := writer_step_wf s s2 e h ⟨hlen, hwf⟩
  cases e with
  | push q t now =>
    simp only [writer_step] at h
    split_ifs at h with hc
    obtain ⟨hcl, hql, hlast⟩ := hc
    injection h with h
    subst h
    refine ⟨hW2, ?_, hP⟩
    intro y hy
    have hqlt : q < s.lastTs.length := by rw [hlen]; exact hql
    have hd := hBB y hy
    have hyt : y.ts ≤ t := by
      rcases (hd q hql).2 with ⟨l, hl, hyl⟩ | hclk
      · rw [hl] at hlast
        exact le_trans hyl hlast
      · have h5 : now - llq_max_age ≤ t := ht
        have h6 : s.clock - llq_max_age ≤ now - llq_max_age := by omega
        exact le_trans (le_trans hclk h6) h5
    intro i hi
    simp only [List.length_set] at hi
    by_cases hiq : i = q
    · subst hiq
      rw [list_getD_set_self _ _ _ _ hql, list_getD_set_self _ _ _ _ hqlt]
      constructor
      · intro x hx
        rcases List.mem_append.1 hx with hx | hx
        · exact (hd i hql).1 x hx
        · rw [List.mem_singleton] at hx
          rw [hx]
          exact hyt
      · exact Or.inl ⟨t, rfl, hyt⟩
    · rw [list_getD_set_ne _ _ _ _ _ (Ne.symm hiq), list_getD_set_ne _ _ _ _ _ (Ne.symm hiq)]
      refine ⟨(hd i hi).1, ?_⟩
      rcases (hd i hi).2 with hl | hclk
      · exact Or.inl hl
      · exact Or.inr (le_trans hclk (show s.clock - llq_max_age ≤ now - llq_max_age by omega))
  | ipop q now =>
    rcases hq : s.queues.getD q [] with _ | ⟨t, rest⟩
    · simp only [writer_step, hq] at h
      exact Option.noConfusion h
    · simp only [writer_step, hq] at h
      split_ifs at h with hc
      obtain ⟨hcl, hne, hho⟩ := hc
      injection h with h
      subst h
      have hql : q < s.queues.length := by
        by_contra hq2
        rw [List.getD_eq_default _ _ (le_of_not_lt hq2)] at hq
        exact List.noConfusion hq
      have hsorted : (t :: rest).Sorted (· ≤ ·) := by
        rw [← hq]; exact (hwf q hql).1
      have htmem : t ∈ s.queues.getD q [] := by rw [hq]; exact List.mem_cons_self t rest
      refine ⟨hW2, ?_, ?_⟩
      · intro y hy
        rcases List.mem_append.1 hy with hy | hy
        · have hd := hBB y hy
          intro i hi
          simp only [List.length_set] at hi
          by_cases hiq : i = q
          · subst hiq
            rw [list_getD_set_self _ _ _ _ hql]
            constructor
            · intro x hx
              exact (hd i hql).1 x (by rw [hq]; exact List.mem_cons_of_mem t hx)
            · rcases (hd i hql).2 with hl | hclk
              · exact Or.inl hl
              · exact Or.inr (le_trans hclk (show s.clock - llq_max_age ≤ now - llq_max_age by omega))
          · rw [list_getD_set_ne _ _ _ _ _ (Ne.symm hiq)]
            refine ⟨(hd i hi).1, ?_⟩
            rcases (hd i hi).2 with hl | hclk
            · exact Or.inl hl
            · exact Or.inr (le_trans hclk (show s.clock - llq_max_age ≤ now - llq_max_age by omega))
        · rw [List.mem_singleton] at hy
          subst hy
          intro i hi
          simp only [List.length_set] at hi
          by_cases hiq : i = q
          · subst hiq
            rw [list_getD_set_self _ _ _ _ hql]
            constructor
            · intro x hx
              exact List.rel_of_sorted_cons hsorted x hx
            · obtain ⟨l, hl, htl⟩ := (hwf i hql).2 t htmem
              exact Or.inl ⟨l, hl, htl⟩
          · rw [list_getD_set_ne _ _ _ _ _ (Ne.symm hiq)]
            have hnei := all_nonempty_getD _ hne i hi
            obtain ⟨h0, l0, hql0⟩ := List.exists_cons_of_ne_nil hnei
            have hh0 : (s.queues.getD i []).head? = some h0 := by rw [hql0]; rfl
            have hth0 : t ≤ h0 := heads_ok_head _ _ hho i hi h0 hh0
            constructor
            · intro x hx
              exact le_trans hth0 (sorted_head_le _ (hwf i hi).1 x hx h0 hh0)
            · obtain ⟨l, hl, h0l⟩ :=
                (hwf i hi).2 h0 (by rw [hql0]; exact List.mem_cons_self h0 l0)
              exact Or.inl ⟨l, hl, le_trans hth0 h0l⟩
      · refine List.pairwise_append.2 ⟨hP, List.pairwise_singleton _ _, ?_⟩
        intro y hy w hw
        rw [List.mem_singleton] at hw
        subst hw
        exact (hBB y hy q hql).1 t htmem
  | fpop q now =>
    rcases hq : s.queues.getD q [] with _ | ⟨t, rest⟩
    · simp only [writer_step, hq] at h
      exact Option.noConfusion h
    · simp only [writer_step, hq] at h
      split_ifs at h with hc
      obtain ⟨hcl, hold, hho⟩ := hc
      injection h with h
      subst h
      have hql : q < s.queues.length := by
        by_contra hq2
        rw [List.getD_eq_default _ _ (le_of_not_lt hq2)] at hq
        exact List.noConfusion hq
      have hsorted : (t :: rest).Sorted (· ≤ ·) := by
        rw [← hq]; exact (hwf q hql).1
      have htmem : t ∈ s.queues.getD q [] := by rw [hq]; exact List.mem_cons_self t rest
      refine ⟨hW2, ?_, ?_⟩
      · intro y hy
        rcases List.mem_append.1 hy with hy | hy
        · have hd := hBB y hy
          intro i hi
          simp only [List.length_set] at hi
          by_cases hiq : i = q
          · subst hiq
            rw [list_getD_set_self _ _ _ _ hql]
            constructor
            · intro x hx
              exact (hd i hql).1 x (by rw [hq]; exact List.mem_cons_of_mem t hx)
            · rcases (hd i hql).2 with hl | hclk
              · exact Or.inl hl
              · exact Or.inr (le_trans hclk (show s.clock - llq_max_age ≤ now - llq_max_age by omega))
          · rw [list_getD_set_ne _ _ _ _ _ (Ne.symm hiq)]
            refine ⟨(hd i hi).1, ?_⟩
            rcases (hd i hi).2 with hl | hclk
            · exact Or.inl hl
            · exact Or.inr (le_trans hclk (show s.clock - llq_max_age ≤ now - llq_max_age by omega))
        · rw [List.mem_singleton] at hy
          subst hy
          intro i hi
          simp only [List.length_set] at hi
          constructor
          · intro x hx
            by_cases hiq : i = q
            · subst hiq
              rw [list_getD_set_self _ _ _ _ hql] at hx
              exact List.rel_of_sorted_cons hsorted x hx
            · rw [list_getD_set_ne _ _ _ _ _ (Ne.symm hiq)] at hx
              have hnei : s.queues.getD i [] ≠ [] := List.ne_nil_of_mem hx
              obtain ⟨h0, l0, hql0⟩ := List.exists_cons_of_ne_nil hnei
              have hh0 : (s.queues.getD i []).head? = some h0 := by rw [hql0]; rfl
              have hth0 : t ≤ h0 := heads_ok_head _ _ hho i hi h0 hh0
              exact le_trans hth0 (sorted_head_le _ (hwf i hi).1 x hx h0 hh0)
          · exact Or.inr (le_of_lt hold)
      · refine List.pairwise_append.2 ⟨hP, List.pairwise_singleton _ _, ?_⟩
        intro y hy w hw
        rw [List.mem_singleton] at hw
        subst hw
        exact (hBB y hy q hql).1 t htmem

theorem writer_run_inv_A (evs : List writer_ev) (s s2 : writer_state)
    (hI : inv_A s) (h : writer_run s evs = some s2) : inv_A s2 := by
  induction evs generalizing s with
  | nil =>
    simp only [writer_run] at h
    injection h with h
    subst h
    exact hI
  | cons e evs ih =>
    simp only [writer_run] at h
    rcases he : writer_step s e with _ | s1
    · rw [he] at h
      exact Option.noConfusion h
    · rw [he] at h
      exact ih s1 (writer_step_inv_A s s1 e he hI) h

theorem writer_run_inv_B (evs : List writer_ev) (s s2 : writer_state)
    (hI : inv_B s) (hT : ∀ e ∈ evs, timely e) (h : writer_run s evs = some s2) :
    inv_B s2 := by
  induction evs generalizing s with
  | nil =>
    simp only [writer_run] at h
    injection h with h
    subst h
    exact hI
  | cons e evs ih =>
    simp only [writer_run] at h
    rcases he : writer_step s e with _ | s1
    · rw [he] at h
      exact Option.noConfusion h
    · rw [he] at h
      exact ih s1
        (writer_step_inv_B s s1 e he (hT e (List.mem_cons_self e evs)) hI)
        (fun e2 he2 => hT e2 (List.mem_cons_of_mem e he2)) h

theorem replicate_getD_nil (n i : Nat) :
    (List.replicate n ([] : List Int)).getD i [] = [] := by
  rcases lt_or_ge i n with hi | hi
  · rw [List.getD_eq_getElem _ _ (by simpa using hi)]
    simp
  · rw [List.getD_eq_default _ _ (by simpa using hi)]

theorem inv_A_init (n : Nat) : inv_A (writer_init n) := by
  refine ⟨⟨by simp [writer_init], ?_⟩, ?_, ?_⟩
  · intro i hi
    simp only [writer_init, replicate_getD_nil]
    exact ⟨List.sorted_nil, by intro x hx; cases hx⟩
  · intro y hy
    cases hy
  · exact List.Pairwise.nil

theorem inv_B_init (n : Nat) : inv_B (writer_init n) := by
  refine ⟨⟨by simp [writer_init], ?_⟩, ?_, ?_⟩
  · intro i hi
    simp only [writer_init, replicate_getD_nil]
    exact ⟨List.sorted_nil, by intro x hx; cases hx⟩
  · intro y hy
    cases hy
  · exact List.Pairwise.nil

/-- C2: contract of the k-way merge.  For every trace of the writer
model, (1) unconditionally, whenever two emissions are out of order
(a later emission has a strictly smaller timestamp than an earlier one),
the earlier emission came from the flush path and its timestamp was
strictly older than `now - LLQ_MAX_AGE` at the time it was flushed —
i.e. only messages already older than `T_max_age` are ever emitted out
of global order; and (2) if every pushed message is at most
`LLQ_MAX_AGE` old at the clock of its push — the formal rendering of
"every worker places at least one (current) message in its ring per
`T_max_age`", under which a silent queue only stalls messages that the
flush path may legitimately release — then the output is globally in
non-decreasing timestamp order. -/
theorem output_thread_order (n : Nat) (evs : List writer_ev) (s2 : writer_state)
    (h : writer_run (writer_init n) evs = some s2) :
    s2.out.Pairwise
      (fun y z => z.ts < y.ts → y.flush = true ∧ y.ts < y.now - llq_max_age) ∧
    ((∀ e ∈ evs, timely e) →
      s2.out.Pairwise (fun y z => y.ts ≤ z.ts)) := by
  constructor
  · exact (writer_run_inv_A evs (writer_init n) s2 (inv_A_init n) h).2.2
  · intro hT
    exact (writer_run_inv_B evs (writer_init n) s2 (inv_B_init n) hT h).2.2

theorem output_thread_order_witness :
    List.Pairwise
      (fun y z => z.ts < y.ts → y.flush = true ∧ y.ts < y.now - llq_max_age)
      [llq_emission.mk 8 false 11, llq_emission.mk 9 true 20] ∧
    List.Pairwise (fun (y z : llq_emission) => y.ts ≤ z.ts)
      [llq_emission.mk 8 false 11, llq_emission.mk 9 true 20] := by
  have h := output_thread_order 2
    [writer_ev.push 0 8 10, writer_ev.push 1 9 10, writer_ev.ipop 0 11,
     writer_ev.fpop 1 20]
    ⟨[[], []], [some 8, some 9], 20, [⟨8, false, 11⟩, ⟨9, true, 20⟩]⟩ (by decide)
  exact ⟨h.1, h.2 (by decide)⟩
